import Mathlib

/-!
# CSVTOOLv2 — verification of the CSV ingestion / master-list engine

Shallow embedding of the reconciliation core of the CSVTOOLv2 repository:

* `src/src/lib/csvUtils.js` — `cleanData`, `normalizeHB` (the revision that
  filters on CONTAINER only and calls bare `parseFloat`), embedded in the
  `CsvUtils` namespace;
* `src/src/lib/database.js` (lines 1124–1188) — the revision of `cleanData`
  (three presence fields) and `normalizeHB` (scientific-notation regex guard)
  also present verbatim in the localStorage database module, embedded at top
  level;
* the localStorage database module (uploads, report data, master list,
  comparison operations) shipped alongside `MetricsBar.jsx`, embedded in the
  `LocalDB` namespace;
* the Supabase branch of `saveMasterList` in `src/src/lib/database.js`
  (lines 653–723), with the two table operations it issues
  (`update … eq status active`, `insert`) modelled as list transformations,
  embedded in the `SupaDB` namespace.

JavaScript strings are modelled as Lean `String` / `List Char`; rows parsed
from CSV are association lists from header name to string value.  The
numeric pipeline `Math.floor(parseFloat(s))` followed by `String(...)` is
modelled exactly: the parsers below extract the decimal literal's digit
runs, and `decFloorInt` computes the floor of the denoted value in integer
arithmetic; `decFloorInt_eq_floor` proves it equal to `⌊·⌋` of the exact
rational value of the literal.  The IEEE-754 rounding of extremely long
mantissas and the exponential re-rendering of `String()` at magnitudes
≥ 1e21 are outside the model; every input appearing in the claims is exact
in both semantics.
-/

set_option maxRecDepth 10000

/-! ## JavaScript string primitives -/

/-- Characters removed by `String.prototype.trim` (modelled by Lean's
whitespace predicate; the identifiers and flags of this code base are
ASCII). -/
def wsp (c : Char) : Bool := c.isWhitespace

/-- Leading- and trailing-whitespace removal on character lists. -/
def trimList (l : List Char) : List Char :=
  ((l.dropWhile wsp).reverse.dropWhile wsp).reverse

/-- Model of `value.trim()`. -/
def jsTrim (s : String) : String := ⟨trimList s.data⟩

/-- Model of `value.toLowerCase()` (ASCII; the only comparison made on the
result is against the ASCII literal "nan"). -/
def jsToLower (s : String) : String := ⟨s.data.map Char.toLower⟩

/-! ## Decimal rendering of integers: model of JS `String(int)` -/

/-- The character of a decimal digit. -/
def digitChar : Nat → Char
  | 0 => '0' | 1 => '1' | 2 => '2' | 3 => '3' | 4 => '4'
  | 5 => '5' | 6 => '6' | 7 => '7' | 8 => '8' | _ => '9'

/-- Decimal digits of a natural number, most significant first, with
structural fuel so that the kernel can evaluate it. -/
def natDigitsAux : Nat → Nat → List Char
  | 0, _ => []
  | fuel + 1, n =>
    if n < 10 then [digitChar n]
    else natDigitsAux fuel (n / 10) ++ [digitChar (n % 10)]

/-- Decimal rendering of a natural number. -/
def natToString (n : Nat) : List Char := natDigitsAux (n + 1) n

/-- Model of JavaScript `String(i)` for an integer value (plain decimal
rendering; the exponential form JS uses from 1e21 upward is outside the
rational model). -/
def intToString (i : Int) : String :=
  if i < 0 then ⟨'-' :: natToString i.natAbs⟩ else ⟨natToString i.natAbs⟩

/-! ## Numeric value and floor of decimal literals -/

/-- Value of a run of decimal digit characters. -/
def digitsVal (l : List Char) : Nat :=
  l.foldl (fun a c => 10 * a + (c.toNat - 48)) 0

/-- Floor of the value `±ip.fp × 10^E` of a decimal literal, computed in
integer arithmetic (the model of `Math.floor` applied to the parsed
value). -/
def decFloorInt (neg : Bool) (ip fp : List Char) (E : Int) : Int :=
  let M : Nat := digitsVal ip * 10 ^ fp.length + digitsVal fp
  let e : Int := E - fp.length
  if 0 ≤ e then
    (cond neg (-1) 1) * (M : Int) * (10 : Int) ^ e.toNat
  else
    let d : Nat := 10 ^ (-e).toNat
    if neg then -(((M + d - 1) / d : Nat) : Int) else ((M / d : Nat) : Int)

/-- Exact rational value `±ip.fp × 10^E` of a decimal literal (the
specification-side semantics of `parseFloat` on such a literal). -/
def decValQ (neg : Bool) (ip fp : List Char) (E : Int) : ℚ :=
  (cond neg (-1) 1) *
    ((digitsVal ip : ℚ) + (digitsVal fp : ℚ) / (10 : ℚ) ^ fp.length) *
    (10 : ℚ) ^ E

/-! ## The scientific-notation test and parse

`database.js` guards its conversion with
`/^-?\d+\.?\d*[eE][+-]?\d+$/.test(strValue)` and then calls
`parseFloat(strValue)`; on a string accepted by that regex `parseFloat`
consumes the whole string, so the test and the numeric parse are modelled
together: `parseSci` returns the literal's components exactly when the
character list is in the regex language. -/

/-- Components of a scientific-notation literal `[-]ip[.fp][eE][±]ed`. -/
structure SciParts where
  neg : Bool
  ip : List Char
  fp : List Char
  esgn : Int
  ed : List Char
  deriving DecidableEq

/-- Signed exponent of the literal. -/
def SciParts.expo (p : SciParts) : Int := p.esgn * (digitsVal p.ed : Int)

/-- Optional leading minus sign. -/
def splitSign (l : List Char) : Bool × List Char :=
  if l.head? = some '-' then (true, l.tail) else (false, l)

/-- Optional exponent sign, `+` and missing both meaning positive. -/
def splitExpSign (t : List Char) : Int × List Char :=
  if t.head? = some '+' then (1, t.tail)
  else if t.head? = some '-' then (-1, t.tail)
  else (1, t)

/-- Splitting off the optional `.`-prefixed fraction digits. -/
def splitFrac (r1 : List Char) : List Char × List Char :=
  if r1.head? = some '.' then (r1.tail.takeWhile Char.isDigit, r1.tail.dropWhile Char.isDigit)
  else ([], r1)

/-- Full-match parse of `^-?\d+\.?\d*[eE][+-]?\d+$`. -/
def parseSci (l : List Char) : Option SciParts :=
  let s0 := splitSign l
  let l1 := s0.2
  let ip := l1.takeWhile Char.isDigit
  let r1 := l1.dropWhile Char.isDigit
  if ip = [] then none
  else
    let fr := splitFrac r1
    let r2 := fr.2
    if r2.head? = some 'e' ∨ r2.head? = some 'E' then
      let se := splitExpSign r2.tail
      let ed := se.2.takeWhile Char.isDigit
      let t2 := se.2.dropWhile Char.isDigit
      if ed = [] ∨ t2 ≠ [] then none
      else some ⟨s0.1, ip, fr.1, se.1, ed⟩
    else none

/-! ## Model of JavaScript `parseFloat`

`csvUtils.js`'s `normalizeHB` calls `parseFloat(value)` with no guard:
leading whitespace is skipped and the longest prefix forming a decimal
literal (optional sign, digits and/or a decimal point, an optional
exponent which is dropped again when its digits are missing) is converted;
`NaN` (here `none`) results only when no such prefix exists.  `Infinity`
literals are not modelled (no claim involves them). -/

/-- Longest-prefix decimal parse, the model of `parseFloat`, returning the
sign, integer digits, fraction digits and signed exponent of the consumed
prefix. -/
def jsParseFloat (l : List Char) : Option (Bool × List Char × List Char × Int) :=
  let l0 := l.dropWhile wsp
  let sn : Bool × List Char :=
    if l0.head? = some '-' then (true, l0.tail)
    else if l0.head? = some '+' then (false, l0.tail)
    else (false, l0)
  let l1 := sn.2
  let d1 := l1.takeWhile Char.isDigit
  let r1 := l1.dropWhile Char.isDigit
  let fr := splitFrac r1
  let d2 := fr.1
  let r2 := fr.2
  if d1 = [] ∧ d2 = [] then none
  else
    let expo : Int :=
      if r2.head? = some 'e' ∨ r2.head? = some 'E' then
        let se := splitExpSign r2.tail
        let ed := se.2.takeWhile Char.isDigit
        if ed = [] then 0 else se.1 * (digitsVal ed : Int)
      else 0
    some (sn.1, d1, d2, expo)

/-! ## The two revisions of the identifier normalizer -/

/-- Identifier normalizer of `database.js` (lines 1167–1188), textually
identical to the copy in the localStorage database module: empty/null input
gives the empty string; a trimmed value matching the scientific-notation
regex is parsed and rendered as the integer-truncated decimal string; every
other value is returned trimmed. -/
def normalizeHB (value : Option String) : String :=
  match value with
  | none => ""
  | some s =>
    if s = "" then ""
    else
      let strValue := jsTrim s
      match parseSci strValue.data with
      | some p => intToString (decFloorInt p.neg p.ip p.fp p.expo)
      | none => strValue

namespace CsvUtils

/-- Identifier normalizer of `csvUtils.js` (lines 97–113): bare
`parseFloat` on the raw value; any string with a numeric prefix is
converted via `Math.floor` and `String`, and only a `NaN` parse returns
the value trimmed. -/
def normalizeHB (value : Option String) : String :=
  match value with
  | none => ""
  | some s =>
    if s = "" then ""
    else
      match jsParseFloat s.data with
      | some (neg, d1, d2, expo) => intToString (decFloorInt neg d1 d2 expo)
      | none => jsTrim s

end CsvUtils

/-! ## Rows and the two revisions of the row cleaner

Rows coming out of the CSV parser (`Papa.parse` with `header: true`) are
JavaScript objects mapping header names to string values; they are modelled
as association lists in key order. -/

/-- A parsed CSV row: header name to string value, in key order. -/
def Row : Type := List (String × String)

instance : DecidableEq Row := inferInstanceAs (DecidableEq (List (String × String)))

/-- Model of `row[key]`: the value at a key, `none` when absent. -/
def rowGet (r : Row) (k : String) : Option String :=
  (r.find? (fun kv => kv.1 == k)).map (·.2)

/-- One step of the `cleanData` map of `database.js` / localStorage: trim
every value and normalize the HB column. -/
def cleanRow (r : Row) : Row :=
  r.map (fun kv =>
    (kv.1, if kv.1 == "HB" then normalizeHB (some (jsTrim kv.2)) else jsTrim kv.2))

/-- The truthy / non-empty / not-"nan" test applied to a presence field
(`v && v !== '' && v.toLowerCase() !== 'nan'`), a missing key being falsy. -/
def hasPresence (r : Row) (k : String) : Bool :=
  match rowGet r k with
  | none => false
  | some v => v != "" && jsToLower v != "nan"

/-- Row cleaner of `database.js` (lines 1124–1158): trim and normalize each
row, then keep the row when CONTAINER, HB or MBL carries a value. -/
def cleanData (data : List Row) : List Row :=
  (data.map cleanRow).filter
    (fun r => hasPresence r "CONTAINER" || hasPresence r "HB" || hasPresence r "MBL")

namespace CsvUtils

/-- One step of the `cleanData` map of `csvUtils.js`: same trimming, but
the HB column goes through this file's bare-`parseFloat` normalizer. -/
def cleanRow (r : Row) : Row :=
  r.map (fun kv =>
    (kv.1, if kv.1 == "HB" then CsvUtils.normalizeHB (some (jsTrim kv.2)) else jsTrim kv.2))

/-- Row cleaner of `csvUtils.js` (lines 61–90): despite reading the HB
value into a variable, its filter keeps a row exactly when CONTAINER
carries a value. -/
def cleanData (data : List Row) : List Row :=
  (data.map CsvUtils.cleanRow).filter (fun r => hasPresence r "CONTAINER")

end CsvUtils

/-! ## The localStorage database module

Embedded from the localStorage module shipped alongside `MetricsBar.jsx`:
uploads are kept newest-first (`saveUpload` unshifts), report records carry
their owning upload id and normalized HB, and the master list is a catalog
keyed by HB.  `localStorage` state is passed explicitly; clock readings and
generated ids are parameters. -/

namespace LocalDB

/-- An upload row (`saveUpload`). -/
structure Upload where
  id : String
  filename : String
  row_count : Nat
  upload_date : String
  deriving DecidableEq

/-- A report-data record (`saveReportData`): owning upload, normalized HB,
and the remaining mapped columns (nulled empty values). -/
structure ReportRecord where
  id : String
  upload_id : String
  container : Option String
  seal_number : Option String
  carrier : Option String
  mbl : Option String
  mi : Option String
  vessel : Option String
  hb : String
  outer_quantity : Option String
  pcs : Option String
  wt_lbs : Option String
  cnee : Option String
  frl : Option String
  file_no : Option String
  dest : Option String
  volume : Option String
  vbond : Option String
  tdf : Option String
  deriving DecidableEq

/-- A master-list entry (`updateMasterList`): the mapped columns plus
provenance. -/
structure MasterEntry where
  id : String
  container : Option String
  seal_number : Option String
  carrier : Option String
  mbl : Option String
  mi : Option String
  vessel : Option String
  hb : String
  outer_quantity : Option String
  pcs : Option String
  wt_lbs : Option String
  cnee : Option String
  frl : Option String
  file_no : Option String
  dest : Option String
  volume : Option String
  vbond : Option String
  tdf : Option String
  last_updated_upload_id : String
  updated_at : String
  first_seen_upload_id : String
  created_at : String
  deriving DecidableEq

/-- Model of `row[k] || null`: empty string and missing key both become
null. -/
def orNull (o : Option String) : Option String :=
  match o with
  | none => none
  | some v => if v = "" then none else some v

/-- Model of `saveUpload`: the new upload is unshifted, so the stored
uploads list is ordered newest-first. -/
def saveUpload (uploads : List Upload) (u : Upload) : List Upload := u :: uploads

/-- Index of `currentUploadId` in the stored uploads
(`uploads.findIndex(u => u.id === currentUploadId)`, `none` for `-1`). -/
def findUploadIdx (uploads : List Upload) (cid : String) : Option Nat :=
  uploads.findIdx? (fun u => u.id == cid)

/-- The id of the upload stored immediately after position `i`, i.e. the
upload created immediately before it (`uploads[currentIndex + 1].id`; the
callers only evaluate this under the guard `i < uploads.length - 1`, which
puts `i + 1` in bounds). -/
def prevUploadId (uploads : List Upload) (i : Nat) : String :=
  match uploads[i + 1]? with
  | some u => u.id
  | none => ""

/-- Records of one upload (`reportData.filter(r => r.upload_id === id)`). -/
def recordsOf (reportData : List ReportRecord) (uid : String) : List ReportRecord :=
  reportData.filter (fun r => r.upload_id == uid)

/-- The set of HB keys present in one upload, as a duplicate-free list
(`new Set(reportData.filter(r => r.upload_id === id && r.hb).map(r => r.hb))`;
only membership and cardinality of the set are ever used). -/
def keySet (reportData : List ReportRecord) (uid : String) : List String :=
  (((reportData.filter (fun r => r.upload_id == uid && r.hb != "")).map (·.hb))).dedup

/-- Model of `detectNewItems` (localStorage revision, also embedded at
`MetricsBar.jsx` lines 302–328): count of current-upload keys absent from
the immediately preceding upload, all records counted when no predecessor
exists. -/
def detectNewItems (uploads : List Upload) (reportData : List ReportRecord)
    (cid : String) : Nat :=
  match findUploadIdx uploads cid with
  | none => (recordsOf reportData cid).length
  | some i =>
    if uploads.length - 1 ≤ i then (recordsOf reportData cid).length
    else
      let prevHBs := keySet reportData (prevUploadId uploads i)
      ((keySet reportData cid).filter (fun hb => !prevHBs.contains hb)).length

/-- Model of `detectRemovedItems`: count of preceding-upload keys absent
from the current upload, `0` when no predecessor exists. -/
def detectRemovedItems (uploads : List Upload) (reportData : List ReportRecord)
    (cid : String) : Nat :=
  match findUploadIdx uploads cid with
  | none => 0
  | some i =>
    if uploads.length - 1 ≤ i then 0
    else
      let currentHBs := keySet reportData cid
      ((keySet reportData (prevUploadId uploads i)).filter
        (fun hb => !currentHBs.contains hb)).length

/-- Model of `getNewItemsData`: the current upload's records whose key is
absent from the preceding upload, every current record (keyed or not) when
no predecessor exists. -/
def getNewItemsData (uploads : List Upload) (reportData : List ReportRecord)
    (cid : String) : List ReportRecord :=
  let currentData := recordsOf reportData cid
  match findUploadIdx uploads cid with
  | none => currentData
  | some i =>
    if uploads.length - 1 ≤ i then currentData
    else
      let prevHBs := keySet reportData (prevUploadId uploads i)
      currentData.filter (fun r => r.hb != "" && !prevHBs.contains r.hb)

/-- Model of `getRemovedItemsData`: the preceding upload's records whose
key is absent from the current upload, empty when no predecessor exists. -/
def getRemovedItemsData (uploads : List Upload) (reportData : List ReportRecord)
    (cid : String) : List ReportRecord :=
  match findUploadIdx uploads cid with
  | none => []
  | some i =>
    if uploads.length - 1 ≤ i then []
    else
      let currentHBs := keySet reportData cid
      (recordsOf reportData (prevUploadId uploads i)).filter
        (fun r => r.hb != "" && !currentHBs.contains r.hb)

/-- The item data built by `updateMasterList` for one row (clock reading
passed explicitly; `id`, `first_seen_upload_id` and `created_at` are filled
in only on insertion and are placeheld empty here). -/
def itemDataOf (uploadId : String) (row : Row) (hb : String) (now : String) : MasterEntry :=
  { id := ""
    container := orNull (rowGet row "CONTAINER")
    seal_number := orNull (rowGet row "SEAL #")
    carrier := orNull (rowGet row "CARRIER")
    mbl := orNull (rowGet row "MBL")
    mi := orNull (rowGet row "MI")
    vessel := orNull (rowGet row "VESSEL")
    hb := hb
    outer_quantity := orNull (rowGet row "OUTER QUANTITY")
    pcs := orNull (rowGet row "PCS")
    wt_lbs := orNull (rowGet row "WT_LBS")
    cnee := orNull (rowGet row "CNEE")
    frl := orNull (rowGet row "FRL")
    file_no := orNull (rowGet row "FILE_NO")
    dest := orNull (rowGet row "DEST")
    volume := orNull (rowGet row "VOLUME")
    vbond := orNull (rowGet row "VBOND#")
    tdf := orNull (rowGet row "TDF")
    last_updated_upload_id := uploadId
    updated_at := now
    first_seen_upload_id := ""
    created_at := "" }

/-- Model of the object spread `{ ...existing, ...itemData }`: every field
of the update object overwrites, and the keys absent from it (`id`,
`first_seen_upload_id`, `created_at`) survive from the existing entry. -/
def mergeEntry (existing itemData : MasterEntry) : MasterEntry :=
  { itemData with
    id := existing.id
    first_seen_upload_id := existing.first_seen_upload_id
    created_at := existing.created_at }

/-- One iteration of the `updateMasterList` loop: skip keyless rows,
overwrite the entry with a matching key, append a fresh entry otherwise.
`k` numbers the generated ids. -/
def masterStep (uploadId : String) (now : String) (mkId : Nat → String)
    (st : List MasterEntry × Nat × Nat × Nat) (row : Row) :
    List MasterEntry × Nat × Nat × Nat :=
  let (masterList, added, updated, k) := st
  let hb := normalizeHB (rowGet row "HB")
  if hb = "" then (masterList, added, updated, k)
  else
    let itemData := itemDataOf uploadId row hb now
    match masterList.findIdx? (fun m => m.hb == hb) with
    | some i =>
      match masterList[i]? with
      | some existing => (masterList.set i (mergeEntry existing itemData), added, updated + 1, k)
      | none => (masterList, added, updated, k)
    | none =>
      (masterList ++ [{ itemData with
          id := mkId k
          first_seen_upload_id := uploadId
          created_at := now }],
        added + 1, updated, k + 1)

/-- Model of `updateMasterList` (localStorage revision, embedded at
`MetricsBar.jsx` lines 183–235): upsert each row into the HB-keyed catalog,
returning the new catalog and the `{itemsAdded, itemsUpdated}` counters. -/
def updateMasterList (uploadId : String) (rows : List Row)
    (masterList : List MasterEntry) (now : String) (mkId : Nat → String) :
    List MasterEntry × Nat × Nat :=
  let (m, a, u, _) := rows.foldl (masterStep uploadId now mkId) (masterList, 0, 0, 0)
  (m, a, u)

/-- One `updateMasterList` call description: upload id, rows, clock
reading, id generator. -/
structure MasterCall where
  uploadId : String
  rows : List Row
  now : String
  mkId : Nat → String

/-- The catalog produced by a sequence of `updateMasterList` calls starting
from a given catalog. -/
def applyCalls (calls : List MasterCall) (init : List MasterEntry) : List MasterEntry :=
  calls.foldl (fun m c => (updateMasterList c.uploadId c.rows m c.now c.mkId).1) init

end LocalDB

/-! ## The Supabase branch of the master-list update

From `saveMasterList` in `src/src/lib/database.js` (lines 653–723).  The
rows of the `ocean_data` table are modelled with their `upload_id` and
`status` columns plus the carried payload; the two statements the function
issues — `update({status:'inactive'}).eq('status','active')` and
`insert(records)` — are modelled as the corresponding list transformations,
and the function's return value is its literal
`{ itemsAdded: records.length, itemsUpdated: 0 }`. -/

namespace SupaDB

/-- A row of the `ocean_data` table: dispatch columns plus payload.  The
payload row carries no `upload_id`/`status` key, so the object spread
`{ upload_id: 'master', ...row, status: 'active' }` sets both columns. -/
structure DataRow where
  upload_id : String
  status : String
  payload : Row
  deriving DecidableEq

/-- Model of the Supabase branch of `saveMasterList`: deactivate every
active row, insert the new master list under upload id `master`, and
report every inserted record as added. -/
def saveMasterList (table : List DataRow) (data : List Row) :
    List DataRow × Nat × Nat :=
  ( (table.map (fun r => if r.status = "active" then { r with status := "inactive" } else r))
      ++ data.map (fun row => { upload_id := "master", status := "active", payload := row }),
    data.length, 0 )

/-- Model of `getMasterList`: the active rows stored under upload id
`master`. -/
def getMasterList (table : List DataRow) : List DataRow :=
  table.filter (fun r => r.upload_id == "master" && r.status == "active")

end SupaDB

/-! ## Concrete-store constructors used by the examples -/

/-- An upload row with only its id populated. -/
def LocalDB.mkUpload (id : String) : LocalDB.Upload :=
  { id := id, filename := "", row_count := 0, upload_date := "" }

/-- A report record with only id, owning upload and HB key populated. -/
def LocalDB.mkRec (id uid hb : String) : LocalDB.ReportRecord :=
  { id := id, upload_id := uid, container := none, seal_number := none,
    carrier := none, mbl := none, mi := none, vessel := none, hb := hb,
    outer_quantity := none, pcs := none, wt_lbs := none, cnee := none,
    frl := none, file_no := none, dest := none, volume := none,
    vbond := none, tdf := none }


/-! ## Specification-side predicates

These definitions follow the words of the specification (not the code):
the scientific-notation pattern "optional sign, digits, optional decimal
point, e/E exponent" with its exact rational value, and the row-admission
predicate "carries a value that is non-empty and not equal to nan". -/

/-- A run of decimal digit characters. -/
def IsDigitRun (l : List Char) : Prop := ∀ c ∈ l, c.isDigit = true

/-- Declarative reading of the scientific-notation pattern
`-?\d+\.?\d*[eE][+-]?\d+`: the list decomposes into an optional minus
sign, a non-empty integer digit run, an optional point with fraction
digits, an `e`/`E`, an optional exponent sign and a non-empty exponent
digit run. -/
def SciShape (l : List Char) (p : SciParts) : Prop :=
  p.ip ≠ [] ∧ IsDigitRun p.ip ∧ IsDigitRun p.fp ∧ p.ed ≠ [] ∧ IsDigitRun p.ed ∧
  ∃ mid ee es : List Char,
    ((mid = p.ip ∧ p.fp = []) ∨ mid = p.ip ++ '.' :: p.fp) ∧
    (ee = ['e'] ∨ ee = ['E']) ∧
    ((es = [] ∧ p.esgn = 1) ∨ (es = ['+'] ∧ p.esgn = 1) ∨ (es = ['-'] ∧ p.esgn = -1)) ∧
    l = (cond p.neg ['-'] []) ++ mid ++ ee ++ es ++ p.ed

/-- The list is a scientific-notation literal of exact rational value
`q`. -/
def SciVal (l : List Char) (q : ℚ) : Prop :=
  ∃ p : SciParts, SciShape l p ∧ q = decValQ p.neg p.ip p.fp p.expo

/-- Specification-side row admission: the field carries a value that is
non-empty and not equal to "nan" case-insensitively. -/
def SpecPresent (r : Row) (k : String) : Prop :=
  ∃ v, rowGet r k = some v ∧ v ≠ "" ∧ jsToLower v ≠ "nan"

/-- Specification-side key occurrence: some record of the given upload
carries this HB key. -/
def LocalDB.hasKey (reportData : List LocalDB.ReportRecord) (uid : String) (k : String) : Prop :=
  ∃ r ∈ reportData, r.upload_id = uid ∧ r.hb = k

/-- The master-list invariant of the claims: at most one catalog entry per
HB key, and no entry with an empty key. -/
def LocalDB.KeyUnique (m : List LocalDB.MasterEntry) : Prop :=
  (m.map (·.hb)).Nodup ∧ ∀ e ∈ m, e.hb ≠ ""

/-! ## List-run and trimming lemmas -/

theorem takeWhile_run {α} (p : α → Bool) {l1 l2 : List α}
    (h1 : ∀ c ∈ l1, p c = true) (h2 : ∀ c, l2.head? = some c → p c = false) :
    (l1 ++ l2).takeWhile p = l1 := by
  induction l1 with
  | nil =>
    cases l2 with
    | nil => rfl
    | cons c t => simp [List.takeWhile_cons, h2 c rfl]
  | cons a t ih =>
    have ha := h1 a (by simp)
    simp only [List.cons_append, List.takeWhile_cons, ha, if_true]
    rw [ih (fun c hc => h1 c (by simp [hc]))]

theorem dropWhile_run {α} (p : α → Bool) {l1 l2 : List α}
    (h1 : ∀ c ∈ l1, p c = true) (h2 : ∀ c, l2.head? = some c → p c = false) :
    (l1 ++ l2).dropWhile p = l2 := by
  induction l1 with
  | nil =>
    cases l2 with
    | nil => rfl
    | cons c t => simp [List.dropWhile_cons, h2 c rfl]
  | cons a t ih =>
    have ha := h1 a (by simp)
    simp only [List.cons_append, List.dropWhile_cons, ha, if_true]
    exact ih (fun c hc => h1 c (by simp [hc]))

theorem head?_dropWhile_not {α} (p : α → Bool) {l : List α} {c : α}
    (h : (l.dropWhile p).head? = some c) : p c = false := by
  induction l with
  | nil => simp at h
  | cons a t ih =>
    rw [List.dropWhile_cons] at h
    by_cases hp : p a = true
    · rw [if_pos hp] at h; exact ih h
    · rw [if_neg hp] at h
      simp only [List.head?_cons, Option.some.injEq] at h
      subst h
      exact Bool.eq_false_iff.mpr hp

theorem dropWhile_eq_self_of_head {α} (p : α → Bool) {l : List α}
    (h : ∀ c, l.head? = some c → p c = false) : l.dropWhile p = l := by
  cases l with
  | nil => rfl
  | cons a t => simp [List.dropWhile_cons, h a rfl]

theorem dropWhile_eq_self_of_all {α} (p : α → Bool) {l : List α}
    (h : ∀ c ∈ l, p c = false) : l.dropWhile p = l := by
  cases l with
  | nil => rfl
  | cons a t => simp [List.dropWhile_cons, h a (by simp)]

theorem trimList_eq_self {l : List Char} (h : ∀ c ∈ l, wsp c = false) :
    trimList l = l := by
  unfold trimList
  rw [dropWhile_eq_self_of_all wsp h,
    dropWhile_eq_self_of_all wsp (fun c hc => h c (by simpa using hc)),
    List.reverse_reverse]

theorem trimList_eq_self_of_ends {m : List Char}
    (hh : ∀ c, m.head? = some c → wsp c = false)
    (hl : ∀ c, m.getLast? = some c → wsp c = false) :
    trimList m = m := by
  unfold trimList
  rw [dropWhile_eq_self_of_head wsp hh]
  have hrevhead : ∀ c, m.reverse.head? = some c → wsp c = false := by
    intro c hc
    rw [List.head?_reverse] at hc
    exact hl c hc
  rw [dropWhile_eq_self_of_head wsp hrevhead, List.reverse_reverse]

theorem head?_trimList_not_ws {l : List Char} {c : Char}
    (h : (trimList l).head? = some c) : wsp c = false := by
  unfold trimList at h
  have hsplit : List.dropWhile wsp l =
      (List.dropWhile wsp (List.dropWhile wsp l).reverse).reverse ++
        (List.takeWhile wsp (List.dropWhile wsp l).reverse).reverse := by
    conv_lhs => rw [← List.reverse_reverse (List.dropWhile wsp l)]
    conv_lhs =>
      rw [← List.takeWhile_append_dropWhile (p := wsp)
        (l := (List.dropWhile wsp l).reverse)]
    rw [List.reverse_append]
  have hhead : (List.dropWhile wsp l).head? = some c := by
    rw [hsplit, List.head?_append, h]; rfl
  exact head?_dropWhile_not wsp hhead

theorem getLast?_trimList_not_ws {l : List Char} {c : Char}
    (h : (trimList l).getLast? = some c) : wsp c = false := by
  unfold trimList at h
  rw [List.getLast?_reverse] at h
  exact head?_dropWhile_not wsp h

theorem trimList_trimList (l : List Char) : trimList (trimList l) = trimList l :=
  trimList_eq_self_of_ends
    (fun _ hc => head?_trimList_not_ws hc)
    (fun _ hc => getLast?_trimList_not_ws hc)

theorem jsTrim_jsTrim (s : String) : jsTrim (jsTrim s) = jsTrim s :=
  String.ext (trimList_trimList s.data)

theorem jsTrim_eq_self {s : String} (h : ∀ c ∈ s.data, wsp c = false) :
    jsTrim s = s :=
  String.ext (trimList_eq_self h)

/-! ## Digit-character facts -/

theorem digitChar_isDigit (n : Nat) : (digitChar n).isDigit = true := by
  rcases n with _ | _ | _ | _ | _ | _ | _ | _ | _ | n <;> rfl

theorem isDigit_not_ws {c : Char} (h : c.isDigit = true) : wsp c = false := by
  unfold wsp Char.isWhitespace
  have h1 : c ≠ ' ' := by rintro rfl; exact absurd h (by decide)
  have h2 : c ≠ '\t' := by rintro rfl; exact absurd h (by decide)
  have h3 : c ≠ '\x0d' := by rintro rfl; exact absurd h (by decide)
  have h4 : c ≠ '\n' := by rintro rfl; exact absurd h (by decide)
  simp [h1, h2, h3, h4]

theorem natDigitsAux_digits :
    ∀ fuel n, ∀ c ∈ natDigitsAux fuel n, c.isDigit = true := by
  intro fuel
  induction fuel with
  | zero => intro n c hc; simp [natDigitsAux] at hc
  | succ fuel ih =>
    intro n c hc
    unfold natDigitsAux at hc
    by_cases hn : n < 10
    · simp only [hn, if_true, List.mem_singleton] at hc
      subst hc; exact digitChar_isDigit n
    · simp only [hn, if_false, List.mem_append, List.mem_singleton] at hc
      rcases hc with hc | hc
      · exact ih (n / 10) c hc
      · subst hc; exact digitChar_isDigit (n % 10)

theorem natToString_digits (n : Nat) : ∀ c ∈ natToString n, c.isDigit = true :=
  natDigitsAux_digits (n + 1) n

theorem natToString_ne_nil (n : Nat) : natToString n ≠ [] := by
  unfold natToString natDigitsAux
  by_cases hn : n < 10 <;> simp [hn]

theorem intToString_chars {i : Int} :
    ∀ c ∈ (intToString i).data, c.isDigit = true ∨ c = '-' := by
  intro c hc
  unfold intToString at hc
  by_cases hi : i < 0
  · rw [if_pos hi] at hc
    have hc' : c ∈ '-' :: natToString i.natAbs := hc
    rcases List.mem_cons.mp hc' with h | h
    · right; exact h
    · left; exact natToString_digits _ c h
  · rw [if_neg hi] at hc
    exact Or.inl (natToString_digits _ c hc)

theorem intToString_ne_empty (i : Int) : intToString i ≠ "" := by
  intro h
  have hd : (intToString i).data = [] := by rw [h]
  unfold intToString at hd
  by_cases hi : i < 0
  · simp [hi] at hd
  · simp only [hi, if_false] at hd
    exact natToString_ne_nil _ hd

/-! ## Parser correctness for the scientific-notation pattern -/

theorem splitSign_minus (t : List Char) : splitSign ('-' :: t) = (true, t) := by
  simp [splitSign]

theorem splitSign_of_head {l : List Char}
    (h : ∀ c, l.head? = some c → c ≠ '-') : splitSign l = (false, l) := by
  have hne : l.head? ≠ some '-' := fun hc => h '-' hc rfl
  simp [splitSign, hne]

theorem splitSign_spec (l : List Char) :
    l = (cond (splitSign l).1 ['-'] []) ++ (splitSign l).2 := by
  unfold splitSign
  by_cases h : l.head? = some '-'
  · rw [if_pos h]
    cases l with
    | nil => simp at h
    | cons a t =>
      simp only [List.head?_cons, Option.some.injEq] at h
      subst h; rfl
  · rw [if_neg h]; rfl

theorem splitExpSign_plus (t : List Char) : splitExpSign ('+' :: t) = (1, t) := by
  simp [splitExpSign]

theorem splitExpSign_minus (t : List Char) : splitExpSign ('-' :: t) = (-1, t) := by
  have h1 : ('-' :: t).head? ≠ some '+' := by simp
  have h2 : ('-' :: t).head? = some '-' := rfl
  unfold splitExpSign
  rw [if_neg h1, if_pos h2]
  rfl

theorem splitExpSign_of_head {t : List Char}
    (h : ∀ c, t.head? = some c → c ≠ '+' ∧ c ≠ '-') : splitExpSign t = (1, t) := by
  have h1 : t.head? ≠ some '+' := fun hc => (h '+' hc).1 rfl
  have h2 : t.head? ≠ some '-' := fun hc => (h '-' hc).2 rfl
  simp [splitExpSign, h1, h2]

theorem splitFrac_dot (t : List Char) :
    splitFrac ('.' :: t) = (t.takeWhile Char.isDigit, t.dropWhile Char.isDigit) := by
  simp [splitFrac]

theorem splitFrac_of_head {r : List Char}
    (h : ∀ c, r.head? = some c → c ≠ '.') : splitFrac r = ([], r) := by
  have hne : r.head? ≠ some '.' := fun hc => h '.' hc rfl
  simp [splitFrac, hne]

theorem takeWhile_eq_self_of_all {α} (p : α → Bool) {l : List α}
    (h : ∀ c ∈ l, p c = true) : l.takeWhile p = l := by
  have := @takeWhile_run _ p l [] h (by intro c hc; simp at hc)
  simpa using this

theorem dropWhile_eq_nil_of_all {α} (p : α → Bool) {l : List α}
    (h : ∀ c ∈ l, p c = true) : l.dropWhile p = [] := by
  have := @dropWhile_run _ p l [] h (by intro c hc; simp at hc)
  simpa using this

theorem parseSci_complete {l : List Char} {p : SciParts} (h : SciShape l p) :
    parseSci l = some p := by
  obtain ⟨hip, hipd, hfpd, hed, hedd, mid, ee, es, hmid, hee, hes, hl⟩ := h
  obtain ⟨e0, hee0, he0⟩ : ∃ e0, ee = [e0] ∧ (e0 = 'e' ∨ e0 = 'E') := by
    rcases hee with h | h
    · exact ⟨'e', h, Or.inl rfl⟩
    · exact ⟨'E', h, Or.inr rfl⟩
  subst hee0
  have he0d : e0.isDigit = false := by rcases he0 with rfl | rfl <;> decide
  have he0dot : e0 ≠ '.' := by rcases he0 with rfl | rfl <;> decide
  -- the tail after the mantissa
  have hrest :
      ∀ X : List Char, ∀ c, (e0 :: X).head? = some c → c.isDigit = false := by
    intro X c hc
    simp only [List.head?_cons, Option.some.injEq] at hc
    subst hc; exact he0d
  -- the exponent-digit run parses to itself
  have hedtake : p.ed.takeWhile Char.isDigit = p.ed := takeWhile_eq_self_of_all _ hedd
  have heddrop : p.ed.dropWhile Char.isDigit = [] := dropWhile_eq_nil_of_all _ hedd
  -- the exponent sign splits as described
  have hse : splitExpSign (es ++ p.ed) = (p.esgn, p.ed) := by
    rcases hes with ⟨rfl, hsgn⟩ | ⟨rfl, hsgn⟩ | ⟨rfl, hsgn⟩
    · rw [List.nil_append, splitExpSign_of_head, hsgn]
      intro c hc
      cases hped : p.ed with
      | nil => rw [hped] at hc; simp at hc
      | cons a t =>
        rw [hped] at hc
        simp only [List.head?_cons, Option.some.injEq] at hc
        subst hc
        have had : a.isDigit = true := hedd a (by rw [hped]; simp)
        constructor
        · rintro rfl; simp at had
        · rintro rfl; simp at had
    · rw [List.singleton_append, splitExpSign_plus, hsgn]
    · rw [List.singleton_append, splitExpSign_minus, hsgn]
  -- mantissa decomposition: both cases give the same takeWhile/dropWhile split
  have hmain : (mid ++ e0 :: (es ++ p.ed)).takeWhile Char.isDigit = p.ip ∧
      splitFrac ((mid ++ e0 :: (es ++ p.ed)).dropWhile Char.isDigit) =
        (p.fp, e0 :: (es ++ p.ed)) := by
    rcases hmid with ⟨rfl, hfpnil⟩ | rfl
    · constructor
      · exact takeWhile_run _ hipd (hrest _)
      · rw [dropWhile_run _ hipd (hrest _), splitFrac_of_head, hfpnil]
        intro c hc
        simp only [List.head?_cons, Option.some.injEq] at hc
        subst hc; exact he0dot
    · constructor
      · have : (p.ip ++ '.' :: p.fp) ++ e0 :: (es ++ p.ed) =
            p.ip ++ '.' :: (p.fp ++ e0 :: (es ++ p.ed)) := by simp
        rw [this]
        refine takeWhile_run _ hipd ?_
        intro c hc
        simp only [List.head?_cons, Option.some.injEq] at hc
        subst hc; decide
      · have : (p.ip ++ '.' :: p.fp) ++ e0 :: (es ++ p.ed) =
            p.ip ++ '.' :: (p.fp ++ e0 :: (es ++ p.ed)) := by simp
        rw [this]
        rw [dropWhile_run _ hipd
          (by intro c hc; simp only [List.head?_cons, Option.some.injEq] at hc;
              subst hc; decide)]
        rw [splitFrac_dot, takeWhile_run _ hfpd (hrest _), dropWhile_run _ hfpd (hrest _)]
  -- the sign splits off
  have hsgn : splitSign l = (p.neg, mid ++ e0 :: (es ++ p.ed)) := by
    have hl' : l = (cond p.neg ['-'] []) ++ (mid ++ e0 :: (es ++ p.ed)) := by
      rw [hl]; simp
    cases hneg : p.neg
    · rw [hneg] at hl'
      simp only [cond_false, List.nil_append] at hl'
      rw [hl']
      apply splitSign_of_head
      intro c hc
      obtain ⟨a, ip', hip2⟩ : ∃ a ip', p.ip = a :: ip' := by
        cases hip' : p.ip with
        | nil => exact absurd hip' hip
        | cons a t => exact ⟨a, t, rfl⟩
      have had : a.isDigit = true := hipd a (by rw [hip2]; simp)
      have hhead : a = c := by
        rcases hmid with ⟨hmideq, _⟩ | hmideq <;>
          rw [hmideq, hip2] at hc <;> simpa using hc
      subst hhead
      rintro rfl; simp at had
    · rw [hneg] at hl'
      simp only [cond_true, List.singleton_append] at hl'
      rw [hl', splitSign_minus]
  -- assemble
  unfold parseSci
  rw [hsgn]
  simp only
  rw [hmain.1, hmain.2]
  simp only
  rw [if_neg hip]
  have hcond : (e0 :: (es ++ p.ed)).head? = some 'e' ∨
      (e0 :: (es ++ p.ed)).head? = some 'E' := by
    rcases he0 with rfl | rfl
    · exact Or.inl rfl
    · exact Or.inr rfl
  rw [if_pos hcond]
  simp only [List.tail_cons]
  rw [hse]
  simp only
  rw [hedtake, heddrop]
  rw [if_neg (by simp [hed])]

theorem parseSci_sound {l : List Char} {p : SciParts} (h : parseSci l = some p) :
    SciShape l p := by
  simp only [parseSci] at h
  set l1 := (splitSign l).2 with hl1def
  set ip := l1.takeWhile Char.isDigit with hipdef
  set r1 := l1.dropWhile Char.isDigit with hr1def
  set fr := splitFrac r1 with hfrdef
  set se := splitExpSign fr.2.tail with hsedef
  set ed := se.2.takeWhile Char.isDigit with heddef
  set t2 := se.2.dropWhile Char.isDigit with ht2def
  have hl0 : l = (cond (splitSign l).1 ['-'] []) ++ l1 := splitSign_spec l
  have hl1split : ip ++ r1 = l1 := by
    rw [hipdef, hr1def]; exact List.takeWhile_append_dropWhile _ _
  by_cases hip : ip = []
  · rw [if_pos hip] at h; exact absurd h (by simp)
  rw [if_neg hip] at h
  by_cases he : fr.2.head? = some 'e' ∨ fr.2.head? = some 'E'
  case neg => rw [if_neg he] at h; exact absurd h (by simp)
  rw [if_pos he] at h
  by_cases hguard : ed = [] ∨ t2 ≠ []
  · rw [if_pos hguard] at h; exact absurd h (by simp)
  rw [if_neg hguard] at h
  push_neg at hguard
  obtain ⟨hed, ht2⟩ := hguard
  have hp := (Option.some.inj h).symm
  subst hp
  have hse2 : ed ++ t2 = se.2 := by
    rw [heddef, ht2def]; exact List.takeWhile_append_dropWhile _ _
  rw [ht2, List.append_nil] at hse2
  -- the e/E character heading the remainder after the mantissa
  obtain ⟨e0, t0, hfr2, hee0⟩ :
      ∃ e0 t0, fr.2 = e0 :: t0 ∧ (e0 = 'e' ∨ e0 = 'E') := by
    rcases he with he | he
    · cases hfr2c : fr.2 with
      | nil => rw [hfr2c] at he; simp at he
      | cons a t =>
        rw [hfr2c] at he
        simp only [List.head?_cons, Option.some.injEq] at he
        subst he
        exact ⟨'e', t, rfl, Or.inl rfl⟩
    · cases hfr2c : fr.2 with
      | nil => rw [hfr2c] at he; simp at he
      | cons a t =>
        rw [hfr2c] at he
        simp only [List.head?_cons, Option.some.injEq] at he
        subst he
        exact ⟨'E', t, rfl, Or.inr rfl⟩
  have htail : fr.2.tail = t0 := by simp [hfr2]
  -- the exponent sign
  obtain ⟨es, hes1, hes2⟩ :
      ∃ es : List Char, t0 = es ++ se.2 ∧
        ((es = [] ∧ se.1 = 1) ∨ (es = ['+'] ∧ se.1 = 1) ∨
          (es = ['-'] ∧ se.1 = -1)) := by
    by_cases hplus : t0.head? = some '+'
    · cases htt : t0 with
      | nil => rw [htt] at hplus; simp at hplus
      | cons a t =>
        rw [htt] at hplus
        simp only [List.head?_cons, Option.some.injEq] at hplus
        subst hplus
        rw [htt] at htail
        have hse : se = (1, t) := by rw [hsedef, htail, splitExpSign_plus]
        exact ⟨['+'], by simp [htt, hse], Or.inr (Or.inl ⟨rfl, by simp [hse]⟩)⟩
    · by_cases hminus : t0.head? = some '-'
      · cases htt : t0 with
        | nil => rw [htt] at hminus; simp at hminus
        | cons a t =>
          rw [htt] at hminus
          simp only [List.head?_cons, Option.some.injEq] at hminus
          subst hminus
          rw [htt] at htail
          have hse : se = (-1, t) := by rw [hsedef, htail, splitExpSign_minus]
          exact ⟨['-'], by simp [htt, hse], Or.inr (Or.inr ⟨rfl, by simp [hse]⟩)⟩
      · have hse : se = (1, t0) := by
          rw [hsedef, htail]
          unfold splitExpSign
          rw [if_neg hplus, if_neg hminus]
        exact ⟨[], by simp [hse], Or.inl ⟨rfl, by simp [hse]⟩⟩
  -- the mantissa: fraction digits and the shape of r1
  obtain ⟨mid, hmid, hfp, hmidsplit⟩ :
      ∃ mid, ((mid = ip ∧ fr.1 = []) ∨ mid = ip ++ '.' :: fr.1) ∧
        IsDigitRun fr.1 ∧ ip ++ r1 = mid ++ fr.2 := by
    by_cases hdot : r1.head? = some '.'
    · cases hr1c : r1 with
      | nil => rw [hr1c] at hdot; simp at hdot
      | cons a t =>
        rw [hr1c] at hdot
        simp only [List.head?_cons, Option.some.injEq] at hdot
        subst hdot
        have hfr : fr = (t.takeWhile Char.isDigit, t.dropWhile Char.isDigit) := by
          rw [hfrdef, hr1c, splitFrac_dot]
        have hfr1 : fr.1 = t.takeWhile Char.isDigit := by rw [hfr]
        have hfr2' : fr.2 = t.dropWhile Char.isDigit := by rw [hfr]
        refine ⟨ip ++ '.' :: fr.1, Or.inr rfl, ?_, ?_⟩
        · intro c hc
          rw [hfr1] at hc
          exact List.mem_takeWhile_imp hc
        · have hsplit : t = fr.1 ++ fr.2 := by
            rw [hfr1, hfr2']
            exact (List.takeWhile_append_dropWhile _ _).symm
          conv_lhs => rw [hsplit]
          simp
    · have hfr : fr = ([], r1) := by
        rw [hfrdef]
        unfold splitFrac
        rw [if_neg hdot]
      have hfr1 : fr.1 = [] := by rw [hfr]
      have hfr2' : fr.2 = r1 := by rw [hfr]
      refine ⟨ip, Or.inl ⟨rfl, hfr1⟩, ?_, ?_⟩
      · rw [hfr1]; intro c hc; simp at hc
      · rw [hfr2']
  -- assemble the shape
  refine ⟨hip, fun c hc => List.mem_takeWhile_imp (hipdef ▸ hc), hfp, hed,
    fun c hc => List.mem_takeWhile_imp (heddef ▸ hc), mid, [e0], es, hmid, ?_, hes2, ?_⟩
  · rcases hee0 with rfl | rfl
    · exact Or.inl rfl
    · exact Or.inr rfl
  · have hl1eq : l1 = mid ++ e0 :: (es ++ se.2) := by
      rw [← hl1split, hmidsplit, hfr2, hes1]
    conv_lhs => rw [hl0, hl1eq]
    rw [hse2]
    simp

theorem parseSci_has_e {l : List Char} {p : SciParts} (h : parseSci l = some p) :
    ∃ c ∈ l, c = 'e' ∨ c = 'E' := by
  obtain ⟨-, -, -, -, -, mid, ee, es, -, hee, -, hl⟩ := parseSci_sound h
  rcases hee with rfl | rfl
  · exact ⟨'e', by rw [hl]; simp, Or.inl rfl⟩
  · exact ⟨'E', by rw [hl]; simp, Or.inr rfl⟩

theorem parseSci_eq_none_of_no_e {l : List Char}
    (h : ∀ c ∈ l, c ≠ 'e' ∧ c ≠ 'E') : parseSci l = none := by
  cases hp : parseSci l with
  | none => rfl
  | some p =>
    obtain ⟨c, hc, hce⟩ := parseSci_has_e hp
    rcases hce with rfl | rfl
    · exact absurd rfl (h _ hc).1
    · exact absurd rfl (h _ hc).2

/-! ## The integer floor agrees with the rational floor -/

theorem decValQ_eq_scaled (neg : Bool) (ip fp : List Char) (E : Int) :
    decValQ neg ip fp E = (cond neg (-1) 1 : ℚ) *
      ((digitsVal ip * 10 ^ fp.length + digitsVal fp : ℕ) : ℚ) *
      (10 : ℚ) ^ (E - (fp.length : Int)) := by
  unfold decValQ
  have h10 : (10 : ℚ) ≠ 0 := by norm_num
  have hE : E = (E - (fp.length : Int)) + (fp.length : Int) := by ring
  conv_lhs => rw [hE]
  rw [zpow_add₀ h10, zpow_natCast]
  push_cast
  field_simp
  ring

theorem floor_natCast_mul_inv (M d : Nat) (hd0 : 0 < d) :
    Int.floor ((M : ℚ) * ((d : ℚ))⁻¹) = ((M / d : ℕ) : Int) := by
  have hqd : (0 : ℚ) < (d : ℚ) := by exact_mod_cast hd0
  have h1 := Nat.div_add_mod M d
  have h2 := Nat.mod_lt M hd0
  refine Int.floor_eq_iff.mpr ⟨?_, ?_⟩
  · push_cast
    rw [← div_eq_mul_inv, le_div_iff₀ hqd]
    exact_mod_cast Nat.div_mul_le_self M d
  · push_cast
    rw [← div_eq_mul_inv, div_lt_iff₀ hqd]
    have hnat : M < (M / d + 1) * d := by
      calc M = d * (M / d) + M % d := h1.symm
        _ < d * (M / d) + d := by omega
        _ = (M / d + 1) * d := by ring
    exact_mod_cast hnat

theorem floor_neg_natCast_mul_inv (M d : Nat) (hd0 : 0 < d) :
    Int.floor (-(M : ℚ) * ((d : ℚ))⁻¹) = -(((M + d - 1) / d : ℕ) : Int) := by
  have hqd : (0 : ℚ) < (d : ℚ) := by exact_mod_cast hd0
  have h1 := Nat.div_add_mod (M + d - 1) d
  have h2 := Nat.mod_lt (M + d - 1) hd0
  have hA : M ≤ d * ((M + d - 1) / d) := by omega
  have hB : d * ((M + d - 1) / d) + 1 ≤ M + d := by omega
  set c : Nat := (M + d - 1) / d with hcdef
  refine Int.floor_eq_iff.mpr ⟨?_, ?_⟩
  · push_cast
    rw [neg_mul, ← div_eq_mul_inv, neg_le_neg_iff, div_le_iff₀ hqd]
    calc (M : ℚ) ≤ (d : ℚ) * (c : ℚ) := by exact_mod_cast hA
      _ = (c : ℚ) * d := by ring
  · push_cast
    rw [neg_mul, ← div_eq_mul_inv]
    rw [show (-((c : ℚ)) + 1) = -(((c : ℚ)) - 1) by ring]
    rw [neg_lt_neg_iff, lt_div_iff₀ hqd]
    have hq : (d : ℚ) * (c : ℚ) + 1 ≤ (M : ℚ) + d := by exact_mod_cast hB
    nlinarith [hq]

theorem zpow_toNat_of_nonneg {e : Int} (hle : 0 ≤ e) :
    (10 : ℚ) ^ e = (10 : ℚ) ^ e.toNat := by
  conv_lhs => rw [← Int.toNat_of_nonneg hle]
  exact zpow_natCast _ _

theorem zpow_eq_inv_of_neg {e : Int} (hlt : e < 0) :
    (10 : ℚ) ^ e = (((10 ^ (-e).toNat : ℕ) : ℚ))⁻¹ := by
  have h1 : (((10 ^ (-e).toNat : ℕ) : ℚ)) = (10 : ℚ) ^ ((-e).toNat) := by push_cast; ring
  have h2 : ((-e).toNat : Int) = -e := Int.toNat_of_nonneg (by omega)
  rw [h1, ← zpow_natCast (10 : ℚ) ((-e).toNat), h2, ← zpow_neg, neg_neg]

theorem decFloorInt_eq_floor (neg : Bool) (ip fp : List Char) (E : Int) :
    decFloorInt neg ip fp E = Int.floor (decValQ neg ip fp E) := by
  rw [decValQ_eq_scaled]
  unfold decFloorInt
  set M : Nat := digitsVal ip * 10 ^ fp.length + digitsVal fp with hM
  set e : Int := E - (fp.length : Int) with he
  by_cases hle : 0 ≤ e
  · rw [if_pos hle, zpow_toNat_of_nonneg hle]
    cases neg
    · simp only [cond_false, one_mul]
      rw [show ((M : ℚ) * (10 : ℚ) ^ e.toNat) = (((M : Int) * 10 ^ e.toNat : Int) : ℚ) by
        push_cast; ring]
      rw [Int.floor_intCast]
    · simp only [cond_true]
      rw [show ((-1 : ℚ) * (M : ℚ) * (10 : ℚ) ^ e.toNat) =
          (((-1) * (M : Int) * 10 ^ e.toNat : Int) : ℚ) by push_cast; ring]
      rw [Int.floor_intCast]
  · rw [if_neg hle]
    push_neg at hle
    rw [zpow_eq_inv_of_neg hle]
    have hd0 : 0 < 10 ^ (-e).toNat := by positivity
    cases neg
    · simp only [cond_false, one_mul, if_false, Bool.false_eq_true]
      exact (floor_natCast_mul_inv M _ hd0).symm
    · simp only [cond_true, if_true]
      rw [show ((-1 : ℚ) * (M : ℚ) * (((10 ^ (-e).toNat : ℕ) : ℚ))⁻¹) =
          (-(M : ℚ) * (((10 ^ (-e).toNat : ℕ) : ℚ))⁻¹) by ring]
      exact (floor_neg_natCast_mul_inv M _ hd0).symm

/-! ## Characterization of the identifier normalizer -/

theorem parseSci_nil : parseSci [] = none := rfl

theorem jsTrim_empty : jsTrim "" = "" := rfl

theorem normalizeHB_of_parse {s : String} {p : SciParts} (hs : s ≠ "")
    (hp : parseSci (jsTrim s).data = some p) :
    normalizeHB (some s) = intToString (decFloorInt p.neg p.ip p.fp p.expo) := by
  simp only [normalizeHB]
  rw [if_neg hs, hp]

theorem normalizeHB_of_parse_none {s : String} (hs : s ≠ "")
    (hp : parseSci (jsTrim s).data = none) :
    normalizeHB (some s) = jsTrim s := by
  simp only [normalizeHB]
  rw [if_neg hs, hp]

theorem normalizeHB_eq_floor_of_sciVal {s : String} {q : ℚ}
    (h : SciVal (jsTrim s).data q) :
    normalizeHB (some s) = intToString (Int.floor q) := by
  obtain ⟨p, hshape, hq⟩ := h
  have hp : parseSci (jsTrim s).data = some p := parseSci_complete hshape
  have hs : s ≠ "" := by
    rintro rfl
    rw [jsTrim_empty] at hp
    exact absurd hp (by rw [show ("" : String).data = [] from rfl, parseSci_nil]; simp)
  rw [normalizeHB_of_parse hs hp, decFloorInt_eq_floor, hq]

theorem normalizeHB_eq_trim_of_not_sciVal {s : String}
    (h : ¬ ∃ q : ℚ, SciVal (jsTrim s).data q) :
    normalizeHB (some s) = jsTrim s := by
  by_cases hs : s = ""
  · subst hs; rw [jsTrim_empty]; rfl
  · cases hp : parseSci (jsTrim s).data with
    | none => exact normalizeHB_of_parse_none hs hp
    | some p =>
      exact absurd ⟨decValQ p.neg p.ip p.fp p.expo, p, parseSci_sound hp, rfl⟩ h

theorem normalizeHB_fixed {t : String} (h : normalizeHB (some t) = t) :
    normalizeHB (some (normalizeHB (some t))) = normalizeHB (some t) := by
  rw [h, h]

/-- The rendered integer string is a fixed point of the normalizer. -/
theorem normalizeHB_intToString (i : Int) :
    normalizeHB (some (intToString i)) = intToString i := by
  have hne : intToString i ≠ "" := intToString_ne_empty i
  have hnw : ∀ c ∈ (intToString i).data, wsp c = false := by
    intro c hc
    rcases intToString_chars c hc with h | h
    · exact isDigit_not_ws h
    · subst h; decide
  have htrim : jsTrim (intToString i) = intToString i := jsTrim_eq_self hnw
  have hnone : parseSci (intToString i).data = none := by
    apply parseSci_eq_none_of_no_e
    intro c hc
    rcases intToString_chars c hc with h | h
    · constructor
      · rintro rfl; simp at h
      · rintro rfl; simp at h
    · subst h; constructor <;> decide
  rw [normalizeHB_of_parse_none hne (by rw [htrim]; exact hnone), htrim]

/-- Idempotence of the `database.js` / localStorage identifier
normalizer. -/
theorem normalizeHB_normalizeHB (v : Option String) :
    normalizeHB (some (normalizeHB v)) = normalizeHB v := by
  cases v with
  | none => rfl
  | some s =>
    by_cases hs : s = ""
    · subst hs; rfl
    · cases hp : parseSci (jsTrim s).data with
      | some p =>
        rw [normalizeHB_of_parse hs hp]
        exact normalizeHB_intToString _
      | none =>
        rw [normalizeHB_of_parse_none hs hp]
        by_cases ht : jsTrim s = ""
        · rw [ht]; rfl
        · rw [normalizeHB_of_parse_none ht (by rw [jsTrim_jsTrim]; exact hp),
            jsTrim_jsTrim]
/-! ## Row-cleaner lemmas -/

theorem hasPresence_iff (r : Row) (k : String) :
    hasPresence r k = true ↔ SpecPresent r k := by
  unfold hasPresence SpecPresent
  cases h : rowGet r k with
  | none => simp
  | some v => simp [bne_iff_ne]

theorem mem_cleanData (data : List Row) (r : Row) :
    r ∈ cleanData data ↔ (∃ raw ∈ data, cleanRow raw = r) ∧
      (SpecPresent r "CONTAINER" ∨ SpecPresent r "HB" ∨ SpecPresent r "MBL") := by
  unfold cleanData
  rw [List.mem_filter, List.mem_map]
  simp only [Bool.or_eq_true, hasPresence_iff]
  tauto

/-! ## Local database lemmas: key sets and the diff engine -/

theorem contains_iff_mem {l : List String} {k : String} :
    l.contains k = true ↔ k ∈ l := List.elem_iff

theorem not_contains_iff {l : List String} {k : String} :
    ((!l.contains k) = true) ↔ k ∉ l := by
  cases h : l.contains k
  · simp only [h, Bool.not_false]
    constructor
    · intro _ hm
      rw [← contains_iff_mem, h] at hm
      exact Bool.false_ne_true hm
    · intro _; trivial
  · simp only [h, Bool.not_true]
    constructor
    · intro hfalse
      exact absurd hfalse (by simp)
    · intro hnm
      exact absurd (contains_iff_mem.mp h) hnm

namespace LocalDB

theorem mem_keySet {rd : List ReportRecord} {uid k : String} :
    k ∈ keySet rd uid ↔ hasKey rd uid k ∧ k ≠ "" := by
  unfold keySet hasKey
  simp only [List.mem_dedup, List.mem_map, List.mem_filter,
    Bool.and_eq_true, beq_iff_eq, bne_iff_ne]
  constructor
  · rintro ⟨r, ⟨hr, hu, hne⟩, rfl⟩
    exact ⟨⟨r, hr, hu, rfl⟩, hne⟩
  · rintro ⟨⟨r, hr, hu, rfl⟩, hne⟩
    exact ⟨r, ⟨hr, hu, hne⟩, rfl⟩

theorem length_filter_dedup {α} [DecidableEq α] (M : List α) (q : α → Bool) :
    ((M.dedup).filter q).length = ((M.filter q).dedup).length := by
  apply List.Perm.length_eq
  rw [List.perm_ext_iff_of_nodup ((List.nodup_dedup M).filter q) (List.nodup_dedup _)]
  intro a
  simp [List.mem_filter, List.mem_dedup]

theorem keyFilter_eq (rd : List ReportRecord) (cid : String) (P : List String) :
    ((recordsOf rd cid).filter (fun r => r.hb != "" && !P.contains r.hb)).map (·.hb) =
      ((rd.filter (fun r => r.upload_id == cid && r.hb != "")).map (·.hb)).filter
        (fun hb => !P.contains hb) := by
  unfold recordsOf
  rw [List.filter_filter, List.filter_map, List.filter_filter]
  congr 1
  apply List.filter_congr
  intro r _
  by_cases h3m : r.hb ∈ P
  · have h3 : P.contains r.hb = true := contains_iff_mem.mpr h3m
    cases h1 : (r.upload_id == cid) <;> cases h2 : (r.hb != "") <;>
      simp [h1, h2, h3, h3m, Function.comp]
  · have h3 : P.contains r.hb = false := by
      cases hc : P.contains r.hb
      · rfl
      · exact absurd (contains_iff_mem.mp hc) h3m
    cases h1 : (r.upload_id == cid) <;> cases h2 : (r.hb != "") <;>
      simp [h1, h2, h3, h3m, Function.comp]

theorem detectNew_count (ups : List Upload) (rd : List ReportRecord) (cid : String)
    (i : Nat) (h1 : findUploadIdx ups cid = some i) (h2 : i + 1 < ups.length) :
    detectNewItems ups rd cid =
      ((getNewItemsData ups rd cid).map (·.hb)).dedup.length := by
  have hguard : ¬ ups.length - 1 ≤ i := by omega
  simp only [detectNewItems, getNewItemsData, h1, if_neg hguard]
  rw [keyFilter_eq rd cid (keySet rd (prevUploadId ups i))]
  exact length_filter_dedup _ _

theorem detectRemoved_count (ups : List Upload) (rd : List ReportRecord) (cid : String)
    (i : Nat) (h1 : findUploadIdx ups cid = some i) (h2 : i + 1 < ups.length) :
    detectRemovedItems ups rd cid =
      ((getRemovedItemsData ups rd cid).map (·.hb)).dedup.length := by
  have hguard : ¬ ups.length - 1 ≤ i := by omega
  simp only [detectRemovedItems, getRemovedItemsData, h1, if_neg hguard]
  rw [keyFilter_eq rd (prevUploadId ups i) (keySet rd cid)]
  exact length_filter_dedup _ _

theorem mem_getNewItemsData (ups : List Upload) (rd : List ReportRecord) (cid : String)
    (i : Nat) (h1 : findUploadIdx ups cid = some i) (h2 : i + 1 < ups.length)
    (r : ReportRecord) :
    r ∈ getNewItemsData ups rd cid ↔
      r ∈ recordsOf rd cid ∧ r.hb ≠ "" ∧ ¬ hasKey rd (prevUploadId ups i) r.hb := by
  have hguard : ¬ ups.length - 1 ≤ i := by omega
  simp only [getNewItemsData, h1, if_neg hguard]
  rw [List.mem_filter]
  simp only [Bool.and_eq_true, bne_iff_ne, not_contains_iff]
  constructor
  · rintro ⟨hmem, hne, hcont⟩
    exact ⟨hmem, hne, fun hkey => hcont (mem_keySet.mpr ⟨hkey, hne⟩)⟩
  · rintro ⟨hmem, hne, hkey⟩
    exact ⟨hmem, hne, fun hmemk => hkey (mem_keySet.mp hmemk).1⟩

theorem mem_getRemovedItemsData (ups : List Upload) (rd : List ReportRecord) (cid : String)
    (i : Nat) (h1 : findUploadIdx ups cid = some i) (h2 : i + 1 < ups.length)
    (r : ReportRecord) :
    r ∈ getRemovedItemsData ups rd cid ↔
      r ∈ recordsOf rd (prevUploadId ups i) ∧ r.hb ≠ "" ∧ ¬ hasKey rd cid r.hb := by
  have hguard : ¬ ups.length - 1 ≤ i := by omega
  simp only [getRemovedItemsData, h1, if_neg hguard]
  rw [List.mem_filter]
  simp only [Bool.and_eq_true, bne_iff_ne, not_contains_iff]
  constructor
  · rintro ⟨hmem, hne, hcont⟩
    exact ⟨hmem, hne, fun hkey => hcont (mem_keySet.mpr ⟨hkey, hne⟩)⟩
  · rintro ⟨hmem, hne, hkey⟩
    exact ⟨hmem, hne, fun hmemk => hkey (mem_keySet.mp hmemk).1⟩

theorem keySet_filter_keyless (rd : List ReportRecord) (uid : String) :
    keySet (rd.filter (fun r => r.hb != "")) uid = keySet rd uid := by
  unfold keySet
  rw [List.filter_filter]
  congr 1
  congr 1
  apply List.filter_congr
  intro r _
  cases h1 : (r.upload_id == uid) <;> cases h2 : (r.hb != "") <;> simp [h1, h2]

end LocalDB

/-! ## Master-list reconciler lemmas -/

namespace LocalDB

theorem updateMasterList_single_insert (uid now : String) (mkId : Nat → String) (row : Row)
    (h : normalizeHB (rowGet row "HB") ≠ "") :
    updateMasterList uid [row] [] now mkId =
      ([{ itemDataOf uid row (normalizeHB (rowGet row "HB")) now with
          id := mkId 0, first_seen_upload_id := uid, created_at := now }], 1, 0) := by
  simp only [updateMasterList, List.foldl_cons, List.foldl_nil, masterStep,
    if_neg h, List.findIdx?_nil, List.nil_append]

theorem updateMasterList_single_update (uid now : String) (mkId : Nat → String) (row : Row)
    (e : MasterEntry) (h : normalizeHB (rowGet row "HB") ≠ "")
    (he : e.hb = normalizeHB (rowGet row "HB")) :
    updateMasterList uid [row] [e] now mkId =
      ([mergeEntry e (itemDataOf uid row (normalizeHB (rowGet row "HB")) now)], 0, 1) := by
  have hfind : [e].findIdx? (fun m => m.hb == normalizeHB (rowGet row "HB")) = some 0 := by
    rw [List.findIdx?_cons]
    simp [he]
  simp only [updateMasterList, List.foldl_cons, List.foldl_nil, masterStep,
    if_neg h, hfind]
  simp

theorem masterStep_keyUnique (uid now : String) (mkId : Nat → String) (row : Row)
    (st : List MasterEntry × Nat × Nat × Nat) (h : KeyUnique st.1) :
    KeyUnique (masterStep uid now mkId st row).1 := by
  obtain ⟨m, a, u, k⟩ := st
  obtain ⟨hnodup, hne⟩ := h
  simp only [masterStep]
  by_cases hhb : normalizeHB (rowGet row "HB") = ""
  · rw [if_pos hhb]
    exact ⟨hnodup, hne⟩
  · rw [if_neg hhb]
    cases hidx : m.findIdx? (fun e => e.hb == normalizeHB (rowGet row "HB")) with
    | none =>
      simp only
      constructor
      · rw [List.map_append]
        simp only [List.map_cons, List.map_nil]
        rw [List.nodup_append]
        refine ⟨hnodup, List.nodup_singleton _, ?_⟩
        rw [List.disjoint_singleton]
        show normalizeHB (rowGet row "HB") ∉ List.map (fun x => x.hb) m
        intro hmem
        rw [List.mem_map] at hmem
        obtain ⟨e, he, heq⟩ := hmem
        have hfalse := List.findIdx?_eq_none_iff.mp hidx e he
        rw [heq] at hfalse
        simp at hfalse
      · intro e hemem
        rw [List.mem_append] at hemem
        rcases hemem with hemem | hemem
        · exact hne e hemem
        · rw [List.mem_singleton] at hemem
          subst hemem
          exact hhb
    | some i =>
      obtain ⟨hilt, hifind⟩ := List.findIdx?_eq_some_iff_findIdx_eq.mp hidx
      have hpi : (m[i].hb == normalizeHB (rowGet row "HB")) = true := by
        have hw : List.findIdx (fun e => e.hb == normalizeHB (rowGet row "HB")) m <
            m.length := by
          rw [hifind]; exact hilt
        have hg := @List.findIdx_getElem _ (fun e => e.hb == normalizeHB (rowGet row "HB"))
          m hw
        simp only [hifind] at hg
        exact hg
      rw [beq_iff_eq] at hpi
      simp only
      rw [List.getElem?_eq_getElem hilt]
      simp only
      have hmapset :
          ((m.set i (mergeEntry m[i]
              (itemDataOf uid row (normalizeHB (rowGet row "HB")) now))).map (·.hb)) =
            m.map (·.hb) := by
        rw [List.map_set]
        apply List.ext_getElem?
        intro n
        rw [List.getElem?_set]
        by_cases hin : i = n
        · subst hin
          rw [if_pos rfl, if_pos (by simpa using hilt)]
          rw [List.getElem?_eq_getElem (by simpa using hilt)]
          rw [List.getElem_map]
          rw [show (mergeEntry m[i]
              (itemDataOf uid row (normalizeHB (rowGet row "HB")) now)).hb =
            normalizeHB (rowGet row "HB") from rfl]
          rw [hpi]
        · rw [if_neg hin]
      constructor
      · rw [show ((m.set i (mergeEntry m[i]
            (itemDataOf uid row (normalizeHB (rowGet row "HB")) now))).map
              (fun x => x.hb)) = m.map (fun x => x.hb) from hmapset]
        exact hnodup
      · intro e hemem
        rcases List.mem_or_eq_of_mem_set hemem with hemem | hemem
        · exact hne e hemem
        · subst hemem
          exact hhb


theorem foldl_masterStep_keyUnique (uid now : String) (mkId : Nat → String)
    (rows : List Row) (st : List MasterEntry × Nat × Nat × Nat) (h : KeyUnique st.1) :
    KeyUnique (rows.foldl (masterStep uid now mkId) st).1 := by
  induction rows generalizing st with
  | nil => exact h
  | cons row rows ih =>
    rw [List.foldl_cons]
    exact ih _ (masterStep_keyUnique uid now mkId row st h)

theorem updateMasterList_keyUnique (uid : String) (rows : List Row)
    (m : List MasterEntry) (now : String) (mkId : Nat → String) (h : KeyUnique m) :
    KeyUnique (updateMasterList uid rows m now mkId).1 := by
  unfold updateMasterList
  exact foldl_masterStep_keyUnique uid now mkId rows (m, 0, 0, 0) h

theorem applyCalls_keyUnique (calls : List MasterCall) (init : List MasterEntry)
    (h : KeyUnique init) : KeyUnique (applyCalls calls init) := by
  induction calls generalizing init with
  | nil => exact h
  | cons c cs ih =>
    unfold applyCalls
    rw [List.foldl_cons]
    exact ih _ (updateMasterList_keyUnique c.uploadId c.rows init c.now c.mkId h)

theorem keyUnique_nil : KeyUnique [] := by
  constructor
  · exact List.nodup_nil
  · intro e he; simp at he

end LocalDB

/-! ## Supabase master-list lemmas -/

namespace SupaDB

theorem saveMasterList_counts (table : List DataRow) (data : List Row) :
    (saveMasterList table data).2 = (data.length, 0) := rfl

theorem getMasterList_saveMasterList (table : List DataRow) (data : List Row) :
    getMasterList (saveMasterList table data).1 =
      data.map (fun row => { upload_id := "master", status := "active", payload := row }) := by
  unfold getMasterList saveMasterList
  rw [List.filter_append]
  have h1 : (table.map fun r =>
      if r.status = "active" then { r with status := "inactive" } else r).filter
        (fun r => r.upload_id == "master" && r.status == "active") = [] := by
    rw [List.filter_eq_nil_iff]
    intro a ha
    rw [List.mem_map] at ha
    obtain ⟨r, hr, ha⟩ := ha
    subst ha
    by_cases hs : r.status = "active"
    · simp [hs]
    · simp [hs]
  have h2 : (data.map fun row =>
      ({ upload_id := "master", status := "active", payload := row } : DataRow)).filter
        (fun r => r.upload_id == "master" && r.status == "active") =
      data.map (fun row => { upload_id := "master", status := "active", payload := row }) := by
    rw [List.filter_eq_self]
    intro a ha
    rw [List.mem_map] at ha
    obtain ⟨r, hr, ha⟩ := ha
    subst ha
    rfl
  rw [h1, h2, List.nil_append]

end SupaDB

/-! ## Round trip of the decimal rendering, and stability of `parseFloat` -/

theorem digitsVal_append (l : List Char) (c : Char) :
    digitsVal (l ++ [c]) = 10 * digitsVal l + (c.toNat - 48) := by
  unfold digitsVal
  rw [List.foldl_append]
  rfl

theorem digitChar_val {d : Nat} (h : d < 10) : (digitChar d).toNat - 48 = d := by
  rcases d with _ | _ | _ | _ | _ | _ | _ | _ | _ | d
  · rfl
  · rfl
  · rfl
  · rfl
  · rfl
  · rfl
  · rfl
  · rfl
  · rfl
  · have hd : d = 0 := by omega
    subst hd
    rfl

theorem digitsVal_natDigitsAux :
    ∀ fuel n, n < fuel → digitsVal (natDigitsAux fuel n) = n := by
  intro fuel
  induction fuel with
  | zero => intro n h; omega
  | succ fuel ih =>
    intro n h
    unfold natDigitsAux
    by_cases h10 : n < 10
    · rw [if_pos h10]
      have hsingle : digitsVal [digitChar n] =
          10 * digitsVal [] + ((digitChar n).toNat - 48) := by
        rw [← digitsVal_append]
        rfl
      rw [hsingle, show digitsVal ([] : List Char) = 0 from rfl, digitChar_val h10]
      omega
    · rw [if_neg h10]
      rw [digitsVal_append]
      have hdiv : n / 10 < fuel := by
        have h1 : n / 10 < n := Nat.div_lt_self (by omega) (by omega)
        omega
      rw [ih (n / 10) hdiv, digitChar_val (Nat.mod_lt n (by omega))]
      omega

theorem digitsVal_natToString (n : Nat) : digitsVal (natToString n) = n :=
  digitsVal_natDigitsAux (n + 1) n (by omega)

theorem jsParseFloat_digits {D : List Char} (hD : D ≠ [])
    (hdig : ∀ c ∈ D, c.isDigit = true) :
    jsParseFloat D = some (false, D, [], 0) := by
  obtain ⟨d0, D', rfl⟩ : ∃ d0 D', D = d0 :: D' := by
    cases D with
    | nil => exact absurd rfl hD
    | cons a t => exact ⟨a, t, rfl⟩
  have hd0 : d0.isDigit = true := hdig d0 (by simp)
  have hnws : ∀ c ∈ d0 :: D', wsp c = false := fun c hc => isDigit_not_ws (hdig c hc)
  have hdrop : (d0 :: D').dropWhile wsp = d0 :: D' := dropWhile_eq_self_of_all wsp hnws
  have hne1 : ¬ ((d0 :: D').head? = some '-') := by
    intro hcl
    simp only [List.head?_cons, Option.some.injEq] at hcl
    subst hcl
    simp at hd0
  have hne2 : ¬ ((d0 :: D').head? = some '+') := by
    intro hcl
    simp only [List.head?_cons, Option.some.injEq] at hcl
    subst hcl
    simp at hd0
  have htake : (d0 :: D').takeWhile Char.isDigit = d0 :: D' :=
    takeWhile_eq_self_of_all _ hdig
  have hdropd : (d0 :: D').dropWhile Char.isDigit = [] :=
    dropWhile_eq_nil_of_all _ hdig
  simp only [jsParseFloat, hdrop, if_neg hne1, if_neg hne2, htake, hdropd]
  rw [show splitFrac [] = ([], []) from rfl]
  simp

theorem jsParseFloat_minus_digits {D : List Char} (hD : D ≠ [])
    (hdig : ∀ c ∈ D, c.isDigit = true) :
    jsParseFloat ('-' :: D) = some (true, D, [], 0) := by
  have hnws : ∀ c ∈ '-' :: D, wsp c = false := by
    intro c hc
    rcases List.mem_cons.mp hc with rfl | hc
    · decide
    · exact isDigit_not_ws (hdig c hc)
  have hdrop : ('-' :: D).dropWhile wsp = '-' :: D := dropWhile_eq_self_of_all wsp hnws
  have htake : D.takeWhile Char.isDigit = D := takeWhile_eq_self_of_all _ hdig
  have hdropd : D.dropWhile Char.isDigit = [] := dropWhile_eq_nil_of_all _ hdig
  have hsn : (if ('-' :: D).head? = some '-' then (true, ('-' :: D).tail)
      else if ('-' :: D).head? = some '+' then (false, ('-' :: D).tail)
      else (false, '-' :: D)) = (true, D) := by
    rw [if_pos (show ('-' :: D).head? = some '-' from rfl)]
    rfl
  simp only [jsParseFloat, hdrop, hsn]
  simp only [htake, hdropd]
  rw [show splitFrac [] = (([] : List Char), ([] : List Char)) from rfl]
  simp [hD]

theorem csvNormalizeHB_intToString (i : Int) :
    CsvUtils.normalizeHB (some (intToString i)) = intToString i := by
  have hne := intToString_ne_empty i
  by_cases hi : i < 0
  · have hdata : (intToString i).data = '-' :: natToString i.natAbs := by
      unfold intToString
      rw [if_pos hi]
    have hparse : jsParseFloat (intToString i).data =
        some (true, natToString i.natAbs, [], 0) := by
      rw [hdata]
      exact jsParseFloat_minus_digits (natToString_ne_nil _) (natToString_digits _)
    have hfloor : decFloorInt true (natToString i.natAbs) [] 0 = i := by
      have hstep : decFloorInt true (natToString i.natAbs) [] 0 = -(i.natAbs : Int) := by
        unfold decFloorInt
        simp [digitsVal_natToString, show digitsVal [] = 0 from rfl]
      rw [hstep]
      omega
    simp only [CsvUtils.normalizeHB]
    rw [if_neg hne, hparse]
    show intToString (decFloorInt true (natToString i.natAbs) [] 0) = intToString i
    rw [hfloor]
  · have hdata : (intToString i).data = natToString i.natAbs := by
      unfold intToString
      rw [if_neg hi]
    have hparse : jsParseFloat (intToString i).data =
        some (false, natToString i.natAbs, [], 0) := by
      rw [hdata]
      exact jsParseFloat_digits (natToString_ne_nil _) (natToString_digits _)
    have hfloor : decFloorInt false (natToString i.natAbs) [] 0 = i := by
      have hstep : decFloorInt false (natToString i.natAbs) [] 0 = (i.natAbs : Int) := by
        unfold decFloorInt
        simp [digitsVal_natToString, show digitsVal [] = 0 from rfl]
      rw [hstep]
      omega
    simp only [CsvUtils.normalizeHB]
    rw [if_neg hne, hparse]
    show intToString (decFloorInt false (natToString i.natAbs) [] 0) = intToString i
    rw [hfloor]
/-! ## Stability of a `NaN` parse under trimming -/

theorem takeWhile_append_eq_nil {α} {p : α → Bool} {x y : List α}
    (h : (x ++ y).takeWhile p = []) : x.takeWhile p = [] := by
  cases x with
  | nil => rfl
  | cons a t =>
    rw [List.cons_append, List.takeWhile_cons] at h
    cases hpa : p a with
    | true => rw [if_pos hpa] at h; exact absurd h (by simp)
    | false => simp [List.takeWhile_cons, hpa]

theorem dropWhile_eq_self_of_takeWhile_nil {α} {p : α → Bool} {z : List α}
    (h : z.takeWhile p = []) : z.dropWhile p = z := by
  cases z with
  | nil => rfl
  | cons a t =>
    rw [List.takeWhile_cons] at h
    cases hpa : p a with
    | true => rw [if_pos hpa] at h; exact absurd h (by simp)
    | false => simp [List.dropWhile_cons, hpa]

theorem splitFrac_fst_nil_of_append {m1 w : List Char}
    (h : (splitFrac (m1 ++ w)).1 = []) : (splitFrac m1).1 = [] := by
  cases m1 with
  | nil => rfl
  | cons a t =>
    unfold splitFrac at h ⊢
    rw [List.cons_append] at h
    simp only [List.head?_cons] at h ⊢
    by_cases ha : a = '.'
    · subst ha
      rw [if_pos rfl] at h ⊢
      simp only [List.tail_cons] at h ⊢
      exact takeWhile_append_eq_nil h
    · have hne : ¬ ((some a : Option Char) = some '.') := by simpa using ha
      rw [if_neg hne]

theorem jsParseFloat_cond_append {m1 w : List Char}
    (h1 : (m1 ++ w).takeWhile Char.isDigit = [])
    (h2 : (splitFrac ((m1 ++ w).dropWhile Char.isDigit)).1 = []) :
    m1.takeWhile Char.isDigit = [] ∧
      (splitFrac (m1.dropWhile Char.isDigit)).1 = [] := by
  have hm1 : m1.takeWhile Char.isDigit = [] := takeWhile_append_eq_nil h1
  rw [dropWhile_eq_self_of_takeWhile_nil h1] at h2
  rw [dropWhile_eq_self_of_takeWhile_nil hm1]
  exact ⟨hm1, splitFrac_fst_nil_of_append h2⟩

theorem jsParseFloat_dropWhile (l : List Char) :
    jsParseFloat (l.dropWhile wsp) = jsParseFloat l := by
  have hidem : (l.dropWhile wsp).dropWhile wsp = l.dropWhile wsp :=
    dropWhile_eq_self_of_head wsp (fun _ hc => head?_dropWhile_not wsp hc)
  simp only [jsParseFloat, hidem]

theorem jsParseFloat_append_ws_none {m w : List Char}
    (hm : m.dropWhile wsp = m)
    (h : jsParseFloat (m ++ w) = none) : jsParseFloat m = none := by
  cases m with
  | nil => rfl
  | cons c m' =>
    have hdropl : (c :: (m' ++ w)).dropWhile wsp = c :: (m' ++ w) := by
      refine dropWhile_eq_self_of_head wsp (fun x hx => ?_)
      simp only [List.head?_cons, Option.some.injEq] at hx
      subst hx
      exact head?_dropWhile_not wsp (by rw [hm]; rfl)
    simp only [jsParseFloat, List.cons_append, hdropl, hm, List.head?_cons] at h ⊢
    by_cases hc1 : c = '-'
    · subst hc1
      rw [if_pos rfl] at h ⊢
      simp only [List.tail_cons] at h ⊢
      by_cases hcond : (m' ++ w).takeWhile Char.isDigit = [] ∧
          (splitFrac ((m' ++ w).dropWhile Char.isDigit)).1 = []
      · exact if_pos (jsParseFloat_cond_append hcond.1 hcond.2)
      · rw [if_neg hcond] at h
        exact absurd h (by simp)
    · have hne1 : ¬ ((some c : Option Char) = some '-') := by simpa using hc1
      rw [if_neg hne1] at h ⊢
      by_cases hc2 : c = '+'
      · subst hc2
        rw [if_pos rfl] at h ⊢
        simp only [List.tail_cons] at h ⊢
        by_cases hcond : (m' ++ w).takeWhile Char.isDigit = [] ∧
            (splitFrac ((m' ++ w).dropWhile Char.isDigit)).1 = []
        · exact if_pos (jsParseFloat_cond_append hcond.1 hcond.2)
        · rw [if_neg hcond] at h
          exact absurd h (by simp)
      · have hne2 : ¬ ((some c : Option Char) = some '+') := by simpa using hc2
        rw [if_neg hne2] at h ⊢
        by_cases hcond : (c :: (m' ++ w)).takeWhile Char.isDigit = [] ∧
            (splitFrac ((c :: (m' ++ w)).dropWhile Char.isDigit)).1 = []
        · have hc' : ((c :: m') ++ w).takeWhile Char.isDigit = [] ∧
              (splitFrac (((c :: m') ++ w).dropWhile Char.isDigit)).1 = [] := by
            rw [List.cons_append]
            exact hcond
          exact if_pos (jsParseFloat_cond_append hc'.1 hc'.2)
        · rw [if_neg hcond] at h
          exact absurd h (by simp)

theorem jsParseFloat_trimList_none {l : List Char}
    (h : jsParseFloat l = none) : jsParseFloat (trimList l) = none := by
  have hu : l.dropWhile wsp =
      trimList l ++ ((l.dropWhile wsp).reverse.takeWhile wsp).reverse := by
    unfold trimList
    conv_lhs => rw [← List.reverse_reverse (l.dropWhile wsp),
      ← List.takeWhile_append_dropWhile (p := wsp) (l := (l.dropWhile wsp).reverse)]
    rw [List.reverse_append]
  rw [← jsParseFloat_dropWhile l, hu] at h
  refine jsParseFloat_append_ws_none ?_ h
  exact dropWhile_eq_self_of_head wsp (fun _ hc => head?_trimList_not_ws hc)

/-- The bare-`parseFloat` normalizer of `csvUtils.js` is idempotent. -/
theorem csvNormalizeHB_idem (v : Option String) :
    CsvUtils.normalizeHB (some (CsvUtils.normalizeHB v)) = CsvUtils.normalizeHB v := by
  match v with
  | none => rfl
  | some s =>
    by_cases hs : s = ""
    · subst hs; rfl
    · cases hp : jsParseFloat s.data with
      | some t =>
        obtain ⟨neg, d1, d2, expo⟩ := t
        have hinner : CsvUtils.normalizeHB (some s) =
            intToString (decFloorInt neg d1 d2 expo) := by
          simp only [CsvUtils.normalizeHB]
          rw [if_neg hs, hp]
        rw [hinner]
        exact csvNormalizeHB_intToString (decFloorInt neg d1 d2 expo)
      | none =>
        have hinner : CsvUtils.normalizeHB (some s) = jsTrim s := by
          simp only [CsvUtils.normalizeHB]
          rw [if_neg hs, hp]
        rw [hinner]
        by_cases ht : jsTrim s = ""
        · rw [ht]; rfl
        · have hp' : jsParseFloat (jsTrim s).data = none := jsParseFloat_trimList_none hp
          simp only [CsvUtils.normalizeHB]
          rw [if_neg ht, hp']
          exact jsTrim_jsTrim s
/-! ## The claims -/

theorem csvMem_cleanData (data : List Row) (r : Row) :
    r ∈ CsvUtils.cleanData data ↔
      (∃ raw ∈ data, CsvUtils.cleanRow raw = r) ∧ SpecPresent r "CONTAINER" := by
  unfold CsvUtils.cleanData
  rw [List.mem_filter, List.mem_map]
  simp only [hasPresence_iff]

/-- Claim C1 (amended): the `database.js` row cleaner admits a cleaned row
exactly when one of CONTAINER, HB, MBL carries a non-empty non-"nan" value
(with the spec's three examples), but the `csvUtils.js` revision admits a
row exactly when CONTAINER alone carries a value. -/
theorem C1_row_admission :
    (∀ (data : List Row) (r : Row),
      r ∈ cleanData data ↔ (∃ raw ∈ data, cleanRow raw = r) ∧
        (SpecPresent r "CONTAINER" ∨ SpecPresent r "HB" ∨ SpecPresent r "MBL")) ∧
    (∀ (data : List Row) (r : Row),
      r ∈ CsvUtils.cleanData data ↔
        (∃ raw ∈ data, CsvUtils.cleanRow raw = r) ∧ SpecPresent r "CONTAINER") ∧
    cleanData [[("CONTAINER", "C1"), ("HB", ""), ("MBL", "")]] =
      [[("CONTAINER", "C1"), ("HB", ""), ("MBL", "")]] ∧
    cleanData [[("CONTAINER", ""), ("HB", ""), ("MBL", "")]] = [] ∧
    cleanData [[("CONTAINER", "nan"), ("HB", ""), ("MBL", "")]] = [] :=
  ⟨mem_cleanData, csvMem_cleanData, by decide, by decide, by decide⟩

/-- Claim C1 counterexample: a row with empty CONTAINER and a non-empty HB
is kept by the `database.js` cleaner but dropped by the `csvUtils.js`
cleaner, so the claimed admission policy does not hold for the latter. -/
theorem C1_counterexample :
    cleanData [[("CONTAINER", ""), ("HB", "H1"), ("MBL", "")]] =
      [[("CONTAINER", ""), ("HB", "H1"), ("MBL", "")]] ∧
    CsvUtils.cleanData [[("CONTAINER", ""), ("HB", "H1"), ("MBL", "")]] = [] := by
  decide

/-- Claim C2 (amended): the `database.js` normalizer satisfies the claimed
contract — null and empty map to "", a trimmed input in the
scientific-notation language is replaced by the integer-truncated decimal
rendering of its value, every other input is returned trimmed, and the two
quoted examples hold. -/
theorem C2_normalizer_contract (s : String) :
    normalizeHB none = "" ∧
    normalizeHB (some "") = "" ∧
    (∀ q : ℚ, SciVal (jsTrim s).data q →
      normalizeHB (some s) = intToString (Int.floor q)) ∧
    ((¬ ∃ q : ℚ, SciVal (jsTrim s).data q) → normalizeHB (some s) = jsTrim s) ∧
    normalizeHB (some "6.17E+08") = "617000000" ∧
    normalizeHB (some "62R0537240") = "62R0537240" :=
  ⟨rfl, rfl, fun _ hq => normalizeHB_eq_floor_of_sciVal hq,
    fun hnq => normalizeHB_eq_trim_of_not_sciVal hnq, by decide, by decide⟩

/-- Claim C2 counterexample: the `csvUtils.js` revision of the normalizer
(bare `parseFloat`, one of the claim's two cited sources) rewrites the
alphanumeric identifier "62R0537240" to "62" instead of returning it
unchanged as the `database.js` revision does. -/
theorem C2_counterexample :
    CsvUtils.normalizeHB (some "62R0537240") = "62" ∧
    normalizeHB (some "62R0537240") = "62R0537240" := by
  decide
/-- Claim C3 (amended): the Supabase branch of `saveMasterList` is not an
upsert — it deactivates every previously active row, stores the incoming
rows wholesale as the new active master list, and always reports
`itemsAdded = records.length, itemsUpdated = 0`. -/
theorem C3_supabase_replace_all (table : List SupaDB.DataRow) (data : List Row) :
    (SupaDB.saveMasterList table data).2 = (data.length, 0) ∧
    SupaDB.getMasterList (SupaDB.saveMasterList table data).1 =
      data.map (fun row =>
        { upload_id := "master", status := "active", payload := row }) :=
  ⟨SupaDB.saveMasterList_counts table data, SupaDB.getMasterList_saveMasterList table data⟩

/-- Claim C3 counterexample: ingesting the same one-row list twice, the
localStorage reconciler reports `{added 0, updated 1}` on the second call
while the Supabase branch reports `{added 1, updated 0}`, so the two
backends are not observably equivalent. -/
theorem C3_counterexample :
    (LocalDB.updateMasterList "u2" [[("HB", "H1"), ("CONTAINER", "C1")]]
        (LocalDB.updateMasterList "u1" [[("HB", "H1"), ("CONTAINER", "C1")]] [] "t1"
          (fun _ => "id0")).1 "t2" (fun _ => "id0")).2 = (0, 1) ∧
    (SupaDB.saveMasterList
        (SupaDB.saveMasterList [] [[("HB", "H1"), ("CONTAINER", "C1")]]).1
        [[("HB", "H1"), ("CONTAINER", "C1")]]).2 = (1, 0) ∧
    ((0, 1) : Nat × Nat) ≠ (1, 0) := by
  decide

/-- Claim C4 (amended): for an upload with an immediately preceding upload,
`getNewItemsData` / `getRemovedItemsData` are exactly the keyed records of
the current (resp. preceding) snapshot whose key is absent from the other
snapshot's key set, while the count variants return the number of
**distinct** such keys, not the number of such records. -/
theorem C4_diff_engine (ups : List LocalDB.Upload) (rd : List LocalDB.ReportRecord)
    (cid : String) (i : Nat) (h1 : LocalDB.findUploadIdx ups cid = some i)
    (h2 : i + 1 < ups.length) :
    (∀ r, r ∈ LocalDB.getNewItemsData ups rd cid ↔
      r ∈ LocalDB.recordsOf rd cid ∧ r.hb ≠ "" ∧
        ¬ LocalDB.hasKey rd (LocalDB.prevUploadId ups i) r.hb) ∧
    (∀ r, r ∈ LocalDB.getRemovedItemsData ups rd cid ↔
      r ∈ LocalDB.recordsOf rd (LocalDB.prevUploadId ups i) ∧ r.hb ≠ "" ∧
        ¬ LocalDB.hasKey rd cid r.hb) ∧
    LocalDB.detectNewItems ups rd cid =
      ((LocalDB.getNewItemsData ups rd cid).map (·.hb)).dedup.length ∧
    LocalDB.detectRemovedItems ups rd cid =
      ((LocalDB.getRemovedItemsData ups rd cid).map (·.hb)).dedup.length :=
  ⟨fun r => LocalDB.mem_getNewItemsData ups rd cid i h1 h2 r,
    fun r => LocalDB.mem_getRemovedItemsData ups rd cid i h1 h2 r,
    LocalDB.detectNew_count ups rd cid i h1 h2,
    LocalDB.detectRemoved_count ups rd cid i h1 h2⟩

theorem C4_diff_engine_witness :
    LocalDB.findUploadIdx [LocalDB.mkUpload "B", LocalDB.mkUpload "A"] "B" = some 0 ∧
    (LocalDB.detectNewItems [LocalDB.mkUpload "B", LocalDB.mkUpload "A"]
        [LocalDB.mkRec "a1" "A" "1", LocalDB.mkRec "a2" "A" "2", LocalDB.mkRec "a3" "A" "3",
          LocalDB.mkRec "b2" "B" "2", LocalDB.mkRec "b3" "B" "3", LocalDB.mkRec "b4" "B" "4"]
        "B" =
      ((LocalDB.getNewItemsData [LocalDB.mkUpload "B", LocalDB.mkUpload "A"]
        [LocalDB.mkRec "a1" "A" "1", LocalDB.mkRec "a2" "A" "2", LocalDB.mkRec "a3" "A" "3",
          LocalDB.mkRec "b2" "B" "2", LocalDB.mkRec "b3" "B" "3", LocalDB.mkRec "b4" "B" "4"]
        "B").map (·.hb)).dedup.length ∧
    LocalDB.detectRemovedItems [LocalDB.mkUpload "B", LocalDB.mkUpload "A"]
        [LocalDB.mkRec "a1" "A" "1", LocalDB.mkRec "a2" "A" "2", LocalDB.mkRec "a3" "A" "3",
          LocalDB.mkRec "b2" "B" "2", LocalDB.mkRec "b3" "B" "3", LocalDB.mkRec "b4" "B" "4"]
        "B" =
      ((LocalDB.getRemovedItemsData [LocalDB.mkUpload "B", LocalDB.mkUpload "A"]
        [LocalDB.mkRec "a1" "A" "1", LocalDB.mkRec "a2" "A" "2", LocalDB.mkRec "a3" "A" "3",
          LocalDB.mkRec "b2" "B" "2", LocalDB.mkRec "b3" "B" "3", LocalDB.mkRec "b4" "B" "4"]
        "B").map (·.hb)).dedup.length) :=
  ⟨by decide,
    (C4_diff_engine [LocalDB.mkUpload "B", LocalDB.mkUpload "A"]
      [LocalDB.mkRec "a1" "A" "1", LocalDB.mkRec "a2" "A" "2", LocalDB.mkRec "a3" "A" "3",
        LocalDB.mkRec "b2" "B" "2", LocalDB.mkRec "b3" "B" "3", LocalDB.mkRec "b4" "B" "4"]
      "B" 0 (by decide) (by decide)).2.2⟩

/-- Claim C4 counterexample: with two records of key "4" in the current
upload and predecessor keys {"1"}, `detectNewItems` returns 1 (distinct
keys) while `getNewItemsData` holds 2 records, so the count variant does
not agree with the size of the record set. -/
theorem C4_counterexample :
    LocalDB.detectNewItems [LocalDB.mkUpload "B", LocalDB.mkUpload "A"]
      [LocalDB.mkRec "r1" "B" "4", LocalDB.mkRec "r2" "B" "4", LocalDB.mkRec "r3" "A" "1"]
      "B" = 1 ∧
    (LocalDB.getNewItemsData [LocalDB.mkUpload "B", LocalDB.mkUpload "A"]
      [LocalDB.mkRec "r1" "B" "4", LocalDB.mkRec "r2" "B" "4", LocalDB.mkRec "r3" "A" "1"]
      "B").length = 2 := by
  decide

/-- Claim C5: for the first-ever upload (found in the stored uploads with
no later-stored predecessor), `getNewItemsData` returns every record of
that upload and `detectNewItems` their count, while the removed-side
results are empty and 0. -/
theorem C5_first_upload_boundary (ups : List LocalDB.Upload)
    (rd : List LocalDB.ReportRecord) (cid : String) (i : Nat)
    (h1 : LocalDB.findUploadIdx ups cid = some i) (h2 : ups.length ≤ i + 1) :
    LocalDB.getNewItemsData ups rd cid = LocalDB.recordsOf rd cid ∧
    LocalDB.detectNewItems ups rd cid = (LocalDB.recordsOf rd cid).length ∧
    LocalDB.getRemovedItemsData ups rd cid = [] ∧
    LocalDB.detectRemovedItems ups rd cid = 0 := by
  have hguard : ups.length - 1 ≤ i := by omega
  refine ⟨?_, ?_, ?_, ?_⟩ <;>
    simp only [LocalDB.getNewItemsData, LocalDB.detectNewItems,
      LocalDB.getRemovedItemsData, LocalDB.detectRemovedItems, h1, if_pos hguard]

theorem C5_first_upload_boundary_witness :
    LocalDB.findUploadIdx [LocalDB.mkUpload "A"] "A" = some 0 ∧
    (LocalDB.getNewItemsData [LocalDB.mkUpload "A"]
        [LocalDB.mkRec "a1" "A" "1", LocalDB.mkRec "a2" "A" "2"] "A" =
      LocalDB.recordsOf [LocalDB.mkRec "a1" "A" "1", LocalDB.mkRec "a2" "A" "2"] "A" ∧
    LocalDB.detectNewItems [LocalDB.mkUpload "A"]
        [LocalDB.mkRec "a1" "A" "1", LocalDB.mkRec "a2" "A" "2"] "A" =
      (LocalDB.recordsOf [LocalDB.mkRec "a1" "A" "1", LocalDB.mkRec "a2" "A" "2"] "A").length ∧
    LocalDB.getRemovedItemsData [LocalDB.mkUpload "A"]
        [LocalDB.mkRec "a1" "A" "1", LocalDB.mkRec "a2" "A" "2"] "A" = [] ∧
    LocalDB.detectRemovedItems [LocalDB.mkUpload "A"]
        [LocalDB.mkRec "a1" "A" "1", LocalDB.mkRec "a2" "A" "2"] "A" = 0) :=
  ⟨by decide,
    C5_first_upload_boundary [LocalDB.mkUpload "A"]
      [LocalDB.mkRec "a1" "A" "1", LocalDB.mkRec "a2" "A" "2"] "A" 0
      (by decide) (by decide)⟩
/-- Claim C6 (amended): when an immediately preceding upload exists, a
record with an empty key never appears in `getNewItemsData` or
`getRemovedItemsData`, and the count variants are unchanged by deleting
keyless records; but on the no-predecessor branches keyless records are
returned and counted, so the claim does not hold for every upload. -/
theorem C6_keyless_excluded (ups : List LocalDB.Upload) (rd : List LocalDB.ReportRecord)
    (cid : String) (i : Nat) (h1 : LocalDB.findUploadIdx ups cid = some i)
    (h2 : i + 1 < ups.length) :
    (∀ r ∈ LocalDB.getNewItemsData ups rd cid, r.hb ≠ "") ∧
    (∀ r ∈ LocalDB.getRemovedItemsData ups rd cid, r.hb ≠ "") ∧
    LocalDB.detectNewItems ups (rd.filter (fun r => r.hb != "")) cid =
      LocalDB.detectNewItems ups rd cid ∧
    LocalDB.detectRemovedItems ups (rd.filter (fun r => r.hb != "")) cid =
      LocalDB.detectRemovedItems ups rd cid := by
  have hguard : ¬ (ups.length - 1 ≤ i) := by omega
  refine ⟨?_, ?_, ?_, ?_⟩
  · intro r hr
    exact ((LocalDB.mem_getNewItemsData ups rd cid i h1 h2 r).mp hr).2.1
  · intro r hr
    exact ((LocalDB.mem_getRemovedItemsData ups rd cid i h1 h2 r).mp hr).2.1
  · simp only [LocalDB.detectNewItems, h1, if_neg hguard, LocalDB.keySet_filter_keyless]
  · simp only [LocalDB.detectRemovedItems, h1, if_neg hguard, LocalDB.keySet_filter_keyless]

theorem C6_keyless_excluded_witness :
    LocalDB.findUploadIdx [LocalDB.mkUpload "B", LocalDB.mkUpload "A"] "B" = some 0 ∧
    (LocalDB.detectNewItems [LocalDB.mkUpload "B", LocalDB.mkUpload "A"]
        ([LocalDB.mkRec "b0" "B" "", LocalDB.mkRec "b1" "B" "2",
          LocalDB.mkRec "a0" "A" "", LocalDB.mkRec "a1" "A" "1"].filter
            (fun r => r.hb != "")) "B" =
      LocalDB.detectNewItems [LocalDB.mkUpload "B", LocalDB.mkUpload "A"]
        [LocalDB.mkRec "b0" "B" "", LocalDB.mkRec "b1" "B" "2",
          LocalDB.mkRec "a0" "A" "", LocalDB.mkRec "a1" "A" "1"] "B" ∧
    LocalDB.detectRemovedItems [LocalDB.mkUpload "B", LocalDB.mkUpload "A"]
        ([LocalDB.mkRec "b0" "B" "", LocalDB.mkRec "b1" "B" "2",
          LocalDB.mkRec "a0" "A" "", LocalDB.mkRec "a1" "A" "1"].filter
            (fun r => r.hb != "")) "B" =
      LocalDB.detectRemovedItems [LocalDB.mkUpload "B", LocalDB.mkUpload "A"]
        [LocalDB.mkRec "b0" "B" "", LocalDB.mkRec "b1" "B" "2",
          LocalDB.mkRec "a0" "A" "", LocalDB.mkRec "a1" "A" "1"] "B") :=
  ⟨by decide,
    (C6_keyless_excluded [LocalDB.mkUpload "B", LocalDB.mkUpload "A"]
      [LocalDB.mkRec "b0" "B" "", LocalDB.mkRec "b1" "B" "2",
        LocalDB.mkRec "a0" "A" "", LocalDB.mkRec "a1" "A" "1"] "B" 0
      (by decide) (by decide)).2.2⟩

/-- Claim C6 counterexample: for a first-ever upload holding one record
with an empty key, `getNewItemsData` returns that keyless record and
`detectNewItems` counts it. -/
theorem C6_counterexample :
    LocalDB.getNewItemsData [LocalDB.mkUpload "A"] [LocalDB.mkRec "a1" "A" ""] "A" =
      [LocalDB.mkRec "a1" "A" ""] ∧
    (LocalDB.mkRec "a1" "A" "").hb = "" ∧
    LocalDB.detectNewItems [LocalDB.mkUpload "A"] [LocalDB.mkRec "a1" "A" ""] "A" = 1 := by
  decide

/-- Claim C7: starting from an empty catalog, ingesting one row with a
usable key reports `{added 1, updated 0}` and creates one entry; ingesting
the identical row again reports `{added 0, updated 1}` and leaves that
single entry with the same field values, only the `updated_at` provenance
taking the second call's clock reading. -/
theorem C7_double_ingest (uid now1 now2 : String) (mkId : Nat → String) (row : Row)
    (h : normalizeHB (rowGet row "HB") ≠ "") :
    LocalDB.updateMasterList uid [row] [] now1 mkId =
      ([{ LocalDB.itemDataOf uid row (normalizeHB (rowGet row "HB")) now1 with
          id := mkId 0, first_seen_upload_id := uid, created_at := now1 }], 1, 0) ∧
    LocalDB.updateMasterList uid [row]
      [{ LocalDB.itemDataOf uid row (normalizeHB (rowGet row "HB")) now1 with
          id := mkId 0, first_seen_upload_id := uid, created_at := now1 }] now2 mkId =
      ([{ LocalDB.itemDataOf uid row (normalizeHB (rowGet row "HB")) now2 with
          id := mkId 0, first_seen_upload_id := uid, created_at := now1 }], 0, 1) := by
  refine ⟨LocalDB.updateMasterList_single_insert uid now1 mkId row h, ?_⟩
  exact LocalDB.updateMasterList_single_update uid now2 mkId row
    { LocalDB.itemDataOf uid row (normalizeHB (rowGet row "HB")) now1 with
        id := mkId 0, first_seen_upload_id := uid, created_at := now1 } h rfl

theorem C7_double_ingest_witness :
    normalizeHB (rowGet [("HB", "H1")] "HB") ≠ "" ∧
    (LocalDB.updateMasterList "u" [[("HB", "H1")]] [] "t1" (fun _ => "id0") =
      ([{ LocalDB.itemDataOf "u" [("HB", "H1")]
            (normalizeHB (rowGet [("HB", "H1")] "HB")) "t1" with
          id := "id0", first_seen_upload_id := "u", created_at := "t1" }], 1, 0) ∧
    LocalDB.updateMasterList "u" [[("HB", "H1")]]
      [{ LocalDB.itemDataOf "u" [("HB", "H1")]
            (normalizeHB (rowGet [("HB", "H1")] "HB")) "t1" with
          id := "id0", first_seen_upload_id := "u", created_at := "t1" }] "t2"
      (fun _ => "id0") =
      ([{ LocalDB.itemDataOf "u" [("HB", "H1")]
            (normalizeHB (rowGet [("HB", "H1")] "HB")) "t2" with
          id := "id0", first_seen_upload_id := "u", created_at := "t1" }], 0, 1)) :=
  ⟨by decide,
    C7_double_ingest "u" "t1" "t2" (fun _ => "id0") [("HB", "H1")] (by decide)⟩

/-- Claim C8: after any sequence of `updateMasterList` calls starting from
an empty catalog, the catalog holds at most one entry per HB key and no
entry with an empty key. -/
theorem C8_key_uniqueness (calls : List LocalDB.MasterCall) :
    LocalDB.KeyUnique (LocalDB.applyCalls calls []) :=
  LocalDB.applyCalls_keyUnique calls [] LocalDB.keyUnique_nil

/-- Claim C9: both revisions of the identifier normalizer are idempotent —
normalizing an already-normalized value changes nothing. -/
theorem C9_normalizer_idempotent (v : Option String) :
    normalizeHB (some (normalizeHB v)) = normalizeHB v ∧
    CsvUtils.normalizeHB (some (CsvUtils.normalizeHB v)) = CsvUtils.normalizeHB v :=
  ⟨normalizeHB_normalizeHB v, csvNormalizeHB_idem v⟩

/-- Claim C10: a `currentUploadId` absent from the stored uploads takes the
same branch as a first-ever upload in all four diff operations: every
record stored under that id is returned and counted as new, and nothing is
removed. -/
theorem C10_unknown_upload_id (ups : List LocalDB.Upload)
    (rd : List LocalDB.ReportRecord) (cid : String)
    (h : LocalDB.findUploadIdx ups cid = none) :
    LocalDB.detectNewItems ups rd cid = (LocalDB.recordsOf rd cid).length ∧
    LocalDB.getNewItemsData ups rd cid = LocalDB.recordsOf rd cid ∧
    LocalDB.detectRemovedItems ups rd cid = 0 ∧
    LocalDB.getRemovedItemsData ups rd cid = [] := by
  refine ⟨?_, ?_, ?_, ?_⟩ <;>
    simp only [LocalDB.detectNewItems, LocalDB.getNewItemsData,
      LocalDB.detectRemovedItems, LocalDB.getRemovedItemsData, h]

theorem C10_unknown_upload_id_witness :
    LocalDB.findUploadIdx [LocalDB.mkUpload "A"] "X" = none ∧
    (LocalDB.detectNewItems [LocalDB.mkUpload "A"]
        [LocalDB.mkRec "r1" "X" "1", LocalDB.mkRec "r2" "X" "2"] "X" =
      (LocalDB.recordsOf [LocalDB.mkRec "r1" "X" "1", LocalDB.mkRec "r2" "X" "2"] "X").length ∧
    LocalDB.getNewItemsData [LocalDB.mkUpload "A"]
        [LocalDB.mkRec "r1" "X" "1", LocalDB.mkRec "r2" "X" "2"] "X" =
      LocalDB.recordsOf [LocalDB.mkRec "r1" "X" "1", LocalDB.mkRec "r2" "X" "2"] "X" ∧
    LocalDB.detectRemovedItems [LocalDB.mkUpload "A"]
        [LocalDB.mkRec "r1" "X" "1", LocalDB.mkRec "r2" "X" "2"] "X" = 0 ∧
    LocalDB.getRemovedItemsData [LocalDB.mkUpload "A"]
        [LocalDB.mkRec "r1" "X" "1", LocalDB.mkRec "r2" "X" "2"] "X" = []) :=
  ⟨by decide,
    C10_unknown_upload_id [LocalDB.mkUpload "A"]
      [LocalDB.mkRec "r1" "X" "1", LocalDB.mkRec "r2" "X" "2"] "X" (by decide)⟩
